import Mathlib

/-!
Verification of the dagre layout sources (src/util.ts, src/layout.ts,
src/data/list.ts) against their natural-language specification.

Numbers are modelled as rationals: the source only uses addition,
subtraction, multiplication, division, comparison and min/max on
JavaScript numbers in the fragments verified here, and all of those agree
with exact rational arithmetic away from overflow and NaN.  A JavaScript
`throw` is modelled by an `Option`/`Except` result.
-/

namespace Dagre

/-! ## Geometry: `intersectRect` (src/util.ts, lines 83-116) -/

/-- Rectangle label as consumed by `intersectRect`: a center and a size. -/
structure Rect where
  x : ℚ
  y : ℚ
  width : ℚ
  height : ℚ
deriving DecidableEq, Repr

/-- Point with `x` and `y` coordinates. -/
structure Point where
  x : ℚ
  y : ℚ
deriving DecidableEq, Repr

/-- Shallow embedding of `intersectRect(rect, point)` from src/util.ts.
The `throw new Error(...)` on a zero direction vector is modelled by
`none`; in every other case the source returns a point, modelled by
`some`. -/
def intersectRect (rect : Rect) (point : Point) : Option Point :=
  let x := rect.x
  let y := rect.y
  let dx := point.x - x
  let dy := point.y - y
  let w := rect.width / 2
  let h := rect.height / 2
  if dx = 0 ∧ dy = 0 then
    none
  else if |dy| * w > |dx| * h then
    -- Intersection is top or bottom of rect.
    let h := if dy < 0 then -h else h
    some ⟨x + h * dx / dy, y + h⟩
  else
    -- Intersection is left or right of rect.
    let w := if dx < 0 then -w else w
    some ⟨x + w, y + w * dy / dx⟩

/-- C2: the rule selecting the edge and the returned offsets, stated the
way the specification states it. -/
theorem intersectRect_formula_boundary (rect : Rect) (point : Point)
    (hw : 0 < rect.width) (hh : 0 < rect.height)
    (hne : ¬(point.x - rect.x = 0 ∧ point.y - rect.y = 0)) :
    ∃ sx sy : ℚ,
      intersectRect rect point = some ⟨rect.x + sx, rect.y + sy⟩ ∧
      (let dx := point.x - rect.x
       let dy := point.y - rect.y
       let w := rect.width / 2
       let h := rect.height / 2
       if |dy| * w > |dx| * h then
         sy = (if dy < 0 then -h else h) ∧ sx = (if dy < 0 then -h else h) * dx / dy
       else
         sx = (if dx < 0 then -w else w) ∧ sy = (if dx < 0 then -w else w) * dy / dx) ∧
      |sx| ≤ rect.width / 2 ∧ |sy| ≤ rect.height / 2 ∧
      (|sx| = rect.width / 2 ∨ |sy| = rect.height / 2) := by
  set dx := point.x - rect.x with hdx
  set dy := point.y - rect.y with hdy
  set w := rect.width / 2 with hwdef
  set h := rect.height / 2 with hhdef
  have hw2 : 0 < w := by positivity
  have hh2 : 0 < h := by positivity
  by_cases hcase : |dy| * w > |dx| * h
  · -- top or bottom edge
    have hdy0 : dy ≠ 0 := by
      intro h0
      rw [h0] at hcase
      simp only [abs_zero, zero_mul] at hcase
      have : 0 ≤ |dx| * h := by positivity
      linarith
    refine ⟨(if dy < 0 then -h else h) * dx / dy, (if dy < 0 then -h else h), ?_, ?_, ?_, ?_, ?_⟩
    · simp only [intersectRect, ← hdx, ← hdy, ← hwdef, ← hhdef]
      rw [if_neg hne, if_pos hcase]
    · simp only [if_pos hcase, and_true]
    · have hifabs : |(if dy < 0 then -h else h)| = h := by
        split <;> simp [abs_of_pos hh2]
      have habs : |(if dy < 0 then -h else h) * dx / dy| = h * |dx| / |dy| := by
        rw [abs_div, abs_mul, hifabs]
      rw [habs, div_le_iff₀ (abs_pos.mpr hdy0)]
      calc h * |dx| = |dx| * h := by ring
        _ ≤ w * |dy| := by nlinarith [hcase]
    · split <;> simp [abs_of_pos hh2, abs_of_nonneg (le_of_lt hh2), le_refl]
    · right
      split <;> simp [abs_of_pos hh2]
  · -- left or right edge
    have hdx0 : dx ≠ 0 := by
      intro h0
      apply hne
      refine ⟨h0, ?_⟩
      by_contra hdy0
      have habs : 0 < |dy| := abs_pos.mpr hdy0
      rw [h0] at hcase
      simp only [abs_zero, zero_mul, not_lt] at hcase
      nlinarith
    refine ⟨(if dx < 0 then -w else w), (if dx < 0 then -w else w) * dy / dx, ?_, ?_, ?_, ?_, ?_⟩
    · simp only [intersectRect, ← hdx, ← hdy, ← hwdef, ← hhdef]
      rw [if_neg hne, if_neg hcase]
    · simp only [if_neg hcase, true_and]
    · split <;> simp [abs_of_pos hw2, abs_of_nonneg (le_of_lt hw2), le_refl]
    · have hifabs : |(if dx < 0 then -w else w)| = w := by
        split <;> simp [abs_of_pos hw2]
      have habs : |(if dx < 0 then -w else w) * dy / dx| = w * |dy| / |dx| := by
        rw [abs_div, abs_mul, hifabs]
      rw [habs, div_le_iff₀ (abs_pos.mpr hdx0)]
      push_neg at hcase
      calc w * |dy| = |dy| * w := by ring
        _ ≤ |dx| * h := hcase
        _ = h * |dx| := by ring
    · left
      split <;> simp [abs_of_pos hw2]

/-- Witness for C2 at a concrete input: the unit-free rectangle centered
at the origin with width and height 2, aimed at from the point (2, 0). -/
theorem intersectRect_formula_boundary_witness :
    ∃ sx sy : ℚ,
      intersectRect ⟨0, 0, 2, 2⟩ ⟨2, 0⟩ = some ⟨(0 : ℚ) + sx, (0 : ℚ) + sy⟩ ∧
      (let dx := (2 : ℚ) - 0
       let dy := (0 : ℚ) - 0
       let w := (2 : ℚ) / 2
       let h := (2 : ℚ) / 2
       if |dy| * w > |dx| * h then
         sy = (if dy < 0 then -h else h) ∧ sx = (if dy < 0 then -h else h) * dx / dy
       else
         sx = (if dx < 0 then -w else w) ∧ sy = (if dx < 0 then -w else w) * dy / dx) ∧
      |sx| ≤ (2 : ℚ) / 2 ∧ |sy| ≤ (2 : ℚ) / 2 ∧
      (|sx| = (2 : ℚ) / 2 ∨ |sy| = (2 : ℚ) / 2) :=
  intersectRect_formula_boundary ⟨0, 0, 2, 2⟩ ⟨2, 0⟩ (by norm_num) (by norm_num)
    (by norm_num)

/-- C3: `intersectRect` reports the degeneracy error exactly when the
point coincides with the center of the rectangle; for every other input
it returns a point.  The source only reads its arguments and allocates a
fresh result object, which the pure embedding reflects. -/
theorem intersectRect_error_iff (rect : Rect) (point : Point) :
    intersectRect rect point = none ↔
      point.x - rect.x = 0 ∧ point.y - rect.y = 0 := by
  unfold intersectRect
  by_cases hz : point.x - rect.x = 0 ∧ point.y - rect.y = 0
  · rw [if_pos hz]
    simp [hz]
  · rw [if_neg hz]
    constructor
    · intro hcontra
      split at hcontra <;> simp_all
    · intro h
      exact absurd h hz

/-! ## makeSpaceForEdgeLabels (src/layout.ts, lines 220-234) -/

/-- JavaScript `String.prototype.toLowerCase` on the label-position and
option strings used here (ASCII): lowercase every character. -/
def jsToLowerCase (s : String) : String := ⟨s.data.map Char.toLower⟩

/-- Edge label fields read or written by `makeSpaceForEdgeLabels`. -/
structure MSEdgeLabel where
  minlen : ℚ
  width : ℚ
  height : ℚ
  labelpos : String
  labeloffset : ℚ
deriving DecidableEq, Repr

/-- Graph label fields read or written by `makeSpaceForEdgeLabels`. -/
structure MSGraphLabel where
  ranksep : ℚ
  rankdir : String
deriving DecidableEq, Repr

/-- Graph view for `makeSpaceForEdgeLabels`: the pass only touches the
graph label and the label of every edge, so edge keys are elided. -/
structure MSGraph where
  graphLabel : MSGraphLabel
  edges : List MSEdgeLabel
deriving DecidableEq, Repr

/-- Shallow embedding of `makeSpaceForEdgeLabels(g)` from src/layout.ts:
halve `ranksep`, and for every edge double `minlen` and, unless
`labelpos` lowercases to "c", add `labeloffset` to `width` when
`rankdir` is exactly the uppercase string "TB" or "BT" (a case-sensitive
comparison in the source) and to `height` otherwise. -/
def makeSpaceForEdgeLabels (g : MSGraph) : MSGraph :=
  let graph := { g.graphLabel with ranksep := g.graphLabel.ranksep / 2 }
  { graphLabel := graph
    edges := g.edges.map fun e0 =>
      let e := { e0 with minlen := e0.minlen * 2 }
      if jsToLowerCase e.labelpos ≠ "c" then
        if graph.rankdir = "TB" ∨ graph.rankdir = "BT" then
          { e with width := e.width + e.labeloffset }
        else
          { e with height := e.height + e.labeloffset }
      else e }

/-- C5 counterexample: with the default rankdir "tb" (lowercase, meaning
top-bottom) and a non-center label, the source adds `labeloffset` to the
edge HEIGHT, because it compares `rankdir` case-sensitively against the
uppercase strings "TB" and "BT"; the claim predicts the offset is added
to the width for any case variant of tb.  Here width stays 0 and height
becomes 10. -/
theorem makeSpaceForEdgeLabels_rankdir_cex :
    makeSpaceForEdgeLabels ⟨⟨50, "tb"⟩, [⟨1, 0, 0, "r", 10⟩]⟩ =
      ⟨⟨25, "tb"⟩, [⟨2, 0, 10, "r", 10⟩]⟩ ∧ (0 : ℚ) ≠ 0 + 10 := by
  refine ⟨?_, by norm_num⟩
  have hts : jsToLowerCase "r" ≠ "c" := by decide
  have htb : ¬(("tb" : String) = "TB" ∨ ("tb" : String) = "BT") := by decide
  simp only [makeSpaceForEdgeLabels, List.map_cons, List.map_nil, if_pos hts, if_neg htb,
    MSGraph.mk.injEq, MSGraphLabel.mk.injEq, MSEdgeLabel.mk.injEq, List.cons.injEq]
  norm_num

/-- C5 amended: `ranksep` is halved, every edge has `minlen` doubled, and
every edge whose `labelpos` is not "c" (case-insensitively) gains
`labeloffset` on its width when `rankdir` is exactly "TB" or "BT"
(case-sensitive; in particular not for the default "tb") and on its
height otherwise; all other fields are unchanged. -/
theorem makeSpaceForEdgeLabels_spec (g : MSGraph) :
    (makeSpaceForEdgeLabels g).graphLabel.ranksep = g.graphLabel.ranksep / 2 ∧
    (makeSpaceForEdgeLabels g).graphLabel.rankdir = g.graphLabel.rankdir ∧
    List.Forall₂ (fun e0 e1 =>
        e1.minlen = e0.minlen * 2 ∧
        e1.labelpos = e0.labelpos ∧
        e1.labeloffset = e0.labeloffset ∧
        (if jsToLowerCase e0.labelpos ≠ "c" then
          (if g.graphLabel.rankdir = "TB" ∨ g.graphLabel.rankdir = "BT" then
            e1.width = e0.width + e0.labeloffset ∧ e1.height = e0.height
          else
            e1.width = e0.width ∧ e1.height = e0.height + e0.labeloffset)
         else e1.width = e0.width ∧ e1.height = e0.height))
      g.edges (makeSpaceForEdgeLabels g).edges := by
  refine ⟨rfl, rfl, ?_⟩
  simp only [makeSpaceForEdgeLabels, List.forall₂_map_right_iff]
  rw [List.forall₂_same]
  intro e he
  by_cases hlp : jsToLowerCase e.labelpos ≠ "c"
  · by_cases hrd : g.graphLabel.rankdir = "TB" ∨ g.graphLabel.rankdir = "BT"
    · simp [hlp, hrd]
    · simp [hlp, hrd]
  · simp [hlp]

/-! ## simplify (src/util.ts, lines 21-37) -/

/-- Aggregated simple-edge label carrying `weight` and `minlen`, as
written by `simplify` (and as defaulted to weight 0, minlen 1). -/
structure SimpleLabel where
  weight : ℚ
  minlen : ℚ
deriving DecidableEq, Repr

/-- One edge of a directed multigraph: endpoints, a distinguishing name
(meaningful only for multi-edges), and the label fields `simplify`
reads. -/
structure MultiEdge where
  v : String
  w : String
  name : String
  weight : ℚ
  minlen : ℚ
deriving DecidableEq, Repr

/-- Directed multigraph with node labels of type `N` and a graph label of
type `G`, as consumed by `simplify`. -/
structure MultiGraph (N G : Type) where
  graphLabel : G
  nodes : List (String × N)
  edges : List MultiEdge

/-- Simple directed graph produced by `simplify`: at most one edge per
ordered pair of endpoints, so the edge set is a map from pairs to labels
(no multi-edges are representable). -/
structure SimplifiedGraph (N G : Type) where
  graphLabel : G
  nodes : List (String × N)
  edge : String → String → Option SimpleLabel

/-- One iteration of the edge loop of `simplify`: read the aggregate so
far for the pair, defaulting to weight 0 and minlen 1, and overwrite the
pair with summed weight and maxed minlen. -/
def simplifyStep (acc : String → String → Option SimpleLabel) (e : MultiEdge) :
    String → String → Option SimpleLabel :=
  let simpleLabel := (acc e.v e.w).getD ⟨0, 1⟩
  fun v w =>
    if v = e.v ∧ w = e.w then
      some ⟨simpleLabel.weight + e.weight, max simpleLabel.minlen e.minlen⟩
    else acc v w

/-- Shallow embedding of `simplify(g)` from src/util.ts: same graph
label, same nodes with the same labels, and edges aggregated over the
multigraph edge list in order. -/
def simplify {N G : Type} (g : MultiGraph N G) : SimplifiedGraph N G :=
  { graphLabel := g.graphLabel
    nodes := g.nodes
    edge := g.edges.foldl simplifyStep (fun _ _ => none) }

/-- Aggregation of a single pair viewed in isolation: the value the edge
loop of `simplify` carries for one fixed ordered pair of endpoints. -/
def aggStep (acc : Option SimpleLabel) (e : MultiEdge) : Option SimpleLabel :=
  let s := acc.getD ⟨0, 1⟩
  some ⟨s.weight + e.weight, max s.minlen e.minlen⟩

/-- The edge map built by the loop, read at one pair, equals the fold of
the per-pair aggregation over the edges targeting that pair. -/
theorem foldl_simplifyStep (es : List MultiEdge)
    (m : String → String → Option SimpleLabel) (v w : String) :
    (es.foldl simplifyStep m) v w =
      (es.filter fun e => v = e.v ∧ w = e.w).foldl aggStep (m v w) := by
  induction es generalizing m with
  | nil => rfl
  | cons e es ih =>
    rw [List.foldl_cons, ih]
    by_cases hm : v = e.v ∧ w = e.w
    · obtain ⟨hv, hw⟩ := hm
      subst hv
      subst hw
      rw [List.filter_cons_of_pos (by simp), List.foldl_cons]
      simp [simplifyStep, aggStep]
    · rw [List.filter_cons_of_neg (by simpa using hm)]
      congr 1
      simp only [simplifyStep]
      rw [if_neg hm]

/-- Folding the per-pair aggregation from an existing label sums the
weights and maxes the minlens on top of it. -/
theorem foldl_aggStep_some (es : List MultiEdge) (W M : ℚ) :
    es.foldl aggStep (some ⟨W, M⟩) =
      some ⟨W + (es.map (·.weight)).sum, (es.map (·.minlen)).foldl max M⟩ := by
  induction es generalizing W M with
  | nil => simp
  | cons e es ih =>
    rw [List.foldl_cons]
    show es.foldl aggStep (some ⟨W + e.weight, max M e.minlen⟩) = _
    rw [ih]
    simp only [List.map_cons, List.sum_cons, List.foldl_cons]
    congr 2
    ring

/-- C6: `simplify` keeps the graph label, the node list and the node
labels, and its edge map holds, for exactly the ordered pairs joined by
at least one multigraph edge, a single label whose weight is the sum of
the weights of all parallel edges and whose minlen is the maximum over 1
and their minlens. -/
theorem simplify_spec {N G : Type} (g : MultiGraph N G) (v w : String) :
    (simplify g).nodes = g.nodes ∧
    (simplify g).graphLabel = g.graphLabel ∧
    (simplify g).edge v w =
      (if (g.edges.filter fun e => v = e.v ∧ w = e.w) = [] then none
       else some
         ⟨((g.edges.filter fun e => v = e.v ∧ w = e.w).map (·.weight)).sum,
          ((g.edges.filter fun e => v = e.v ∧ w = e.w).map (·.minlen)).foldl max 1⟩) := by
  refine ⟨rfl, rfl, ?_⟩
  show (g.edges.foldl simplifyStep fun _ _ => none) v w = _
  rw [foldl_simplifyStep]
  cases hf : g.edges.filter fun e => v = e.v ∧ w = e.w with
  | nil => rfl
  | cons f fs =>
    rw [if_neg (by simp)]
    rw [List.foldl_cons]
    show fs.foldl aggStep (some ⟨0 + f.weight, max 1 f.minlen⟩) = _
    rw [foldl_aggStep_some]
    simp only [List.map_cons, List.sum_cons, List.foldl_cons]
    congr 2
    ring

/-! ## updateInputGraph (src/layout.ts, lines 116-145) -/

/-- Input-graph node label: the attributes `updateInputGraph` may write,
plus an opaque remainder `rest` standing for every other attribute the
caller put on the label. -/
structure InNodeLabel (α : Type) where
  x : Option ℚ
  y : Option ℚ
  width : Option ℚ
  height : Option ℚ
  rest : α
deriving DecidableEq, Repr

/-- Edge identifier: source, target and optional multi-edge name. -/
structure EdgeKey where
  v : String
  w : String
  name : Option String
deriving DecidableEq, Repr

/-- Input-graph edge label: the attributes `updateInputGraph` may write,
plus an opaque remainder `rest`. -/
structure InEdgeLabel (β : Type) where
  points : Option (List Point)
  x : Option ℚ
  y : Option ℚ
  rest : β
deriving DecidableEq, Repr

/-- Input graph label: `width` and `height` are written, `rest` stands
for everything else. -/
structure InGraphLabel (γ : Type) where
  width : Option ℚ
  height : Option ℚ
  rest : γ
deriving DecidableEq, Repr

/-- Input graph as mutated by `updateInputGraph`: graphlib node labels
may be undefined (hence the `Option`, matching the `if (inputLabel)`
guard in the source), and the compound structure is the `parent` map. -/
structure InputGraph (α β γ : Type) where
  nodes : List (String × Option (InNodeLabel α))
  edges : List (EdgeKey × InEdgeLabel β)
  parent : String → Option String
  graphLabel : InGraphLabel γ

/-- Layout-graph node label fields read by `updateInputGraph`. -/
structure LayoutNodeLabel where
  x : ℚ
  y : ℚ
  width : ℚ
  height : ℚ
deriving DecidableEq, Repr

/-- Layout-graph edge label fields read by `updateInputGraph`; `x` being
present models the `"x" in layoutLabel` test of the source. -/
structure LayoutEdgeLabel where
  points : List Point
  x : Option ℚ
  y : Option ℚ
deriving DecidableEq, Repr

/-- The interface of the layout graph consumed by `updateInputGraph`:
node and edge label lookup, whether a node has children, and the graph
label `width` and `height` it copies. -/
structure LayoutGraphView where
  node : String → Option LayoutNodeLabel
  edge : EdgeKey → Option LayoutEdgeLabel
  childrenNonempty : String → Bool
  width : ℚ
  height : ℚ

/-- Node part of the node loop of `updateInputGraph`: skip nodes whose
input label is undefined; otherwise copy `x` and `y`, and `width` and
`height` exactly when the node has children in the layout graph.
Reading a field of an undefined layout label throws. -/
def updateInputNode {α : Type} (L : LayoutGraphView) (v : String) :
    Option (InNodeLabel α) → Except String (Option (InNodeLabel α))
  | none => .ok none
  | some lbl =>
    match L.node v with
    | none => .error "TypeError: reading x of undefined"
    | some ll => .ok (some { lbl with
        x := some ll.x
        y := some ll.y
        width := if L.childrenNonempty v then some ll.width else lbl.width
        height := if L.childrenNonempty v then some ll.height else lbl.height })

/-- Edge part of the edge loop of `updateInputGraph`: copy `points`
always, and the label anchor `x`, `y` exactly when the layout edge label
has an `x`. -/
def updateInputEdge {β : Type} (L : LayoutGraphView) (k : EdgeKey) (lbl : InEdgeLabel β) :
    Except String (InEdgeLabel β) :=
  match L.edge k with
  | none => .error "TypeError: reading points of undefined"
  | some ll => .ok { lbl with
      points := some ll.points
      x := if ll.x.isSome then ll.x else lbl.x
      y := if ll.x.isSome then ll.y else lbl.y }

/-- Shallow embedding of `updateInputGraph(inputGraph, layoutGraph)` from
src/layout.ts, as a pure function from the old input graph to the new
one. -/
def updateInputGraph {α β γ : Type} (g : InputGraph α β γ) (L : LayoutGraphView) :
    Except String (InputGraph α β γ) := do
  let nodes ← g.nodes.mapM fun p => do
    let lbl ← updateInputNode L p.1 p.2
    pure (p.1, lbl)
  let edges ← g.edges.mapM fun p => do
    let lbl ← updateInputEdge L p.1 p.2
    pure (p.1, lbl)
  pure { nodes := nodes, edges := edges, parent := g.parent,
         graphLabel := { g.graphLabel with width := some L.width, height := some L.height } }

/-- Monadic map over `Except` succeeds elementwise when every element
succeeds, and the outputs are related pointwise to the inputs. -/
theorem mapM_ok_of_forall {A B : Type} (f : A → Except String B) (R : A → B → Prop)
    (l : List A) (h : ∀ a ∈ l, ∃ b, f a = .ok b ∧ R a b) :
    ∃ l', l.mapM f = .ok l' ∧ List.Forall₂ R l l' := by
  induction l with
  | nil => exact ⟨[], rfl, List.Forall₂.nil⟩
  | cons a l ih =>
    obtain ⟨b, hb, hR⟩ := h a (List.mem_cons_self a l)
    obtain ⟨l', hl', hF⟩ := ih fun a ha => h a (List.mem_cons_of_mem _ ha)
    refine ⟨b :: l', ?_, List.Forall₂.cons hR hF⟩
    rw [List.mapM_cons, hb, hl']
    rfl

/-- Relation between an old and a new input node entry stating exactly
what the node loop of `updateInputGraph` writes: nothing for an
undefined label, otherwise `x`, `y` always and `width`, `height` exactly
when the node has children, with the id and `rest` unchanged. -/
def nodeWriteRel {α : Type} (L : LayoutGraphView)
    (p q : String × Option (InNodeLabel α)) : Prop :=
  q.1 = p.1 ∧
  match p.2 with
  | none => q.2 = none
  | some o => ∃ n ll, q.2 = some n ∧ L.node p.1 = some ll ∧
      n.rest = o.rest ∧ n.x = some ll.x ∧ n.y = some ll.y ∧
      (if L.childrenNonempty p.1 then
        n.width = some ll.width ∧ n.height = some ll.height
       else n.width = o.width ∧ n.height = o.height)

/-- Relation between an old and a new input edge entry stating exactly
what the edge loop of `updateInputGraph` writes: `points` always, and
the anchor `x`, `y` exactly when the layout label has an `x`, with the
key and `rest` unchanged. -/
def edgeWriteRel {β : Type} (L : LayoutGraphView)
    (p q : EdgeKey × InEdgeLabel β) : Prop :=
  q.1 = p.1 ∧ ∃ ll, L.edge p.1 = some ll ∧
    q.2.rest = p.2.rest ∧ q.2.points = some ll.points ∧
    (if ll.x.isSome then q.2.x = ll.x ∧ q.2.y = ll.y
     else q.2.x = p.2.x ∧ q.2.y = p.2.y)

/-- C7: under the pipeline invariant that every input node with a label
and every input edge also exists in the layout graph, `updateInputGraph`
succeeds and writes exactly the whitelisted attributes: node `x`, `y`
always and `width`, `height` exactly for nodes with children; edge
`points` always and the anchor `x`, `y` exactly when the layout edge
label has an `x`; graph label `width` and `height`.  Node ids, edge
keys, the parent map, and every `rest` remainder are unchanged. -/
theorem updateInputGraph_frame {α β γ : Type} (g : InputGraph α β γ) (L : LayoutGraphView)
    (hn : ∀ p ∈ g.nodes, p.2.isSome → (L.node p.1).isSome)
    (he : ∀ p ∈ g.edges, (L.edge p.1).isSome) :
    ∃ g', updateInputGraph g L = .ok g' ∧
      g'.parent = g.parent ∧
      g'.graphLabel.rest = g.graphLabel.rest ∧
      g'.graphLabel.width = some L.width ∧
      g'.graphLabel.height = some L.height ∧
      List.Forall₂ (nodeWriteRel L) g.nodes g'.nodes ∧
      List.Forall₂ (edgeWriteRel L) g.edges g'.edges := by
  have hnAll : ∀ p ∈ g.nodes, ∃ q,
      (do
        let lbl ← updateInputNode L p.1 p.2
        pure (p.1, lbl) : Except String (String × Option (InNodeLabel α))) = .ok q ∧
      nodeWriteRel L p q := by
    intro p hp
    match hp2 : p.2 with
    | none =>
      refine ⟨(p.1, none), rfl, rfl, ?_⟩
      · show (match p.2 with
          | none => (p.1, (none : Option (InNodeLabel α))).2 = none
          | some o => ∃ n ll, (p.1, (none : Option (InNodeLabel α))).2 = some n ∧
              L.node p.1 = some ll ∧
              n.rest = o.rest ∧ n.x = some ll.x ∧ n.y = some ll.y ∧
              (if L.childrenNonempty p.1 then
                n.width = some ll.width ∧ n.height = some ll.height
               else n.width = o.width ∧ n.height = o.height))
        rw [hp2]
    | some o =>
      have hsome : (L.node p.1).isSome := hn p hp (by rw [hp2]; rfl)
      obtain ⟨ll, hll⟩ := Option.isSome_iff_exists.mp hsome
      refine ⟨(p.1, some { o with
          x := some ll.x
          y := some ll.y
          width := if L.childrenNonempty p.1 then some ll.width else o.width
          height := if L.childrenNonempty p.1 then some ll.height else o.height }), ?_, rfl, ?_⟩
      · show Except.bind (updateInputNode L p.1 (some o)) (fun lbl => pure (p.1, lbl)) = _
        unfold updateInputNode
        rw [hll]
        rfl
      · show (match p.2 with
          | none => (some { o with
              x := some ll.x
              y := some ll.y
              width := if L.childrenNonempty p.1 then some ll.width else o.width
              height := if L.childrenNonempty p.1 then some ll.height else o.height } :
                Option (InNodeLabel α)) = none
          | some o2 => ∃ n ll2, (some { o with
              x := some ll.x
              y := some ll.y
              width := if L.childrenNonempty p.1 then some ll.width else o.width
              height := if L.childrenNonempty p.1 then some ll.height else o.height } :
                Option (InNodeLabel α)) = some n ∧
              L.node p.1 = some ll2 ∧
              n.rest = o2.rest ∧ n.x = some ll2.x ∧ n.y = some ll2.y ∧
              (if L.childrenNonempty p.1 then
                n.width = some ll2.width ∧ n.height = some ll2.height
               else n.width = o2.width ∧ n.height = o2.height))
        rw [hp2]
        exact ⟨_, ll, rfl, hll, rfl, rfl, rfl, by split <;> exact ⟨rfl, rfl⟩⟩
  have heAll : ∀ p ∈ g.edges, ∃ q,
      (do
        let lbl ← updateInputEdge L p.1 p.2
        pure (p.1, lbl) : Except String (EdgeKey × InEdgeLabel β)) = .ok q ∧
      edgeWriteRel L p q := by
    intro p hp
    obtain ⟨ll, hll⟩ := Option.isSome_iff_exists.mp (he p hp)
    refine ⟨(p.1, { p.2 with
        points := some ll.points
        x := if ll.x.isSome then ll.x else p.2.x
        y := if ll.x.isSome then ll.y else p.2.y }), ?_, rfl, ll, hll, rfl, rfl, ?_⟩
    · show Except.bind (updateInputEdge L p.1 p.2) (fun lbl => pure (p.1, lbl)) = _
      unfold updateInputEdge
      rw [hll]
      rfl
    · split <;> exact ⟨rfl, rfl⟩
  obtain ⟨ns, hns, hnF⟩ := mapM_ok_of_forall _ (nodeWriteRel L) g.nodes hnAll
  obtain ⟨es, hes, heF⟩ := mapM_ok_of_forall _ (edgeWriteRel L) g.edges heAll
  refine ⟨⟨ns, es, g.parent,
      { g.graphLabel with width := some L.width, height := some L.height }⟩,
    ?_, rfl, rfl, rfl, rfl, hnF, heF⟩
  rw [updateInputGraph, hns, hes]
  rfl

/-- Concrete layout-graph view used by the C7 witness. -/
def c7LayoutView : LayoutGraphView :=
  { node := fun v => if v = "a" then some ⟨1, 2, 3, 4⟩ else none
    edge := fun k => if k = ⟨"a", "b", none⟩ then some ⟨[⟨1, 2⟩], some 7, some 8⟩ else none
    childrenNonempty := fun _ => false
    width := 100
    height := 200 }

/-- Concrete input graph used by the C7 witness. -/
def c7InputGraph : InputGraph String String String :=
  { nodes := [("a", some ⟨none, none, some 5, some 6, "nodeRest"⟩)]
    edges := [(⟨"a", "b", none⟩, ⟨none, none, none, "edgeRest"⟩)]
    parent := fun _ => none
    graphLabel := ⟨none, none, "graphRest"⟩ }

/-- Witness for C7 at a concrete one-node one-edge input. -/
theorem updateInputGraph_frame_witness :
    ∃ g', updateInputGraph c7InputGraph c7LayoutView = .ok g' ∧
      g'.parent = c7InputGraph.parent ∧
      g'.graphLabel.rest = c7InputGraph.graphLabel.rest ∧
      g'.graphLabel.width = some c7LayoutView.width ∧
      g'.graphLabel.height = some c7LayoutView.height ∧
      List.Forall₂ (nodeWriteRel c7LayoutView) c7InputGraph.nodes g'.nodes ∧
      List.Forall₂ (edgeWriteRel c7LayoutView) c7InputGraph.edges g'.edges :=
  updateInputGraph_frame c7InputGraph c7LayoutView
    (by intro p hp _; simp only [c7InputGraph, List.mem_singleton] at hp; subst hp
        simp [c7LayoutView])
    (by intro p hp; simp only [c7InputGraph, List.mem_singleton] at hp; subst hp
        simp [c7LayoutView])

/-! ## translateGraph (src/layout.ts, lines 276-330) -/

/-- Node label fields used by `translateGraph`: a positioned box. -/
structure TNode where
  x : ℚ
  y : ℚ
  width : ℚ
  height : ℚ
deriving DecidableEq, Repr

/-- Edge label fields used by `translateGraph`: the polyline `points`,
the optional label anchor and the label box size.  The source tests
`"x" in edge` before reading `x`, `y`, `width` and `height`, and the
pipeline sets the anchor coordinates together, so the anchor is one
optional pair. -/
structure TEdge where
  points : List Point
  xy : Option (ℚ × ℚ)
  width : ℚ
  height : ℚ
deriving DecidableEq, Repr

/-- Graph label fields used by `translateGraph`; `marginx || 0` and
`marginy || 0` are modelled by `Option.getD 0`. -/
structure TGraphLabel where
  marginx : Option ℚ
  marginy : Option ℚ
  width : Option ℚ
  height : Option ℚ
deriving DecidableEq, Repr

/-- Graph view for `translateGraph`. -/
structure TGraph where
  graphLabel : TGraphLabel
  nodes : List (String × TNode)
  edges : List TEdge
deriving DecidableEq, Repr

/-- The boxes passed to `getExtremes` by `translateGraph`, in loop
order: every node box, then the label box of every edge that has an
anchor. -/
def extremeBoxes (g : TGraph) : List TNode :=
  g.nodes.map Prod.snd ++
    g.edges.filterMap fun e => e.xy.map fun p => ⟨p.1, p.2, e.width, e.height⟩

/-- Running minimum started from `Number.POSITIVE_INFINITY`, which is
modelled as `none`: one `Math.min` step of `getExtremes`. -/
def jsMin (m : Option ℚ) (q : ℚ) : Option ℚ :=
  some (match m with | none => q | some r => min r q)

/-- The `minX` value of `translateGraph` after the two extremes loops
and the `minX -= marginx` adjustment.  With no boxes at all `minX`
would stay Infinity in the source and every shift below would be
degenerate; the claims only concern graphs with at least one node, and
the `getD 0` is never reached in that case. -/
def tgMinX (g : TGraph) : ℚ :=
  ((extremeBoxes g).foldl (fun m b => jsMin m (b.x - b.width / 2)) none).getD 0 -
    g.graphLabel.marginx.getD 0

/-- The `maxX` value of `translateGraph`: note the source initializes it
to 0, not to negative Infinity. -/
def tgMaxX (g : TGraph) : ℚ :=
  (extremeBoxes g).foldl (fun m b => max m (b.x + b.width / 2)) 0

/-- The `minY` value of `translateGraph` after the loops and the
`minY -= marginy` adjustment. -/
def tgMinY (g : TGraph) : ℚ :=
  ((extremeBoxes g).foldl (fun m b => jsMin m (b.y - b.height / 2)) none).getD 0 -
    g.graphLabel.marginy.getD 0

/-- The `maxY` value of `translateGraph`, likewise initialized to 0. -/
def tgMaxY (g : TGraph) : ℚ :=
  (extremeBoxes g).foldl (fun m b => max m (b.y + b.height / 2)) 0

/-- Shallow embedding of `translateGraph(g)` from src/layout.ts: compute
extremes over node boxes and edge-label boxes, widen the minimum by the
margins, shift every node, every edge point and every edge-label anchor,
and store the canvas size on the graph label. -/
def translateGraph (g : TGraph) : TGraph :=
  let marginX := g.graphLabel.marginx.getD 0
  let marginY := g.graphLabel.marginy.getD 0
  let minX := tgMinX g
  let minY := tgMinY g
  { graphLabel := { g.graphLabel with
      width := some (tgMaxX g - minX + marginX)
      height := some (tgMaxY g - minY + marginY) }
    nodes := g.nodes.map fun p => (p.1, { p.2 with x := p.2.x - minX, y := p.2.y - minY })
    edges := g.edges.map fun e =>
      { e with
        points := e.points.map fun q => ⟨q.x - minX, q.y - minY⟩
        xy := e.xy.map fun p => (p.1 - minX, p.2 - minY) } }

/-- C4 counterexample: a single 2-by-2 node centered at (-10, -10) with
no margins.  Because `maxX` and `maxY` start at 0 instead of negative
Infinity, the computed canvas is 11 wide and 11 high although the
bounding box of all boxes spans only 2, so the claimed
`width = span + 2 * marginx` fails (11 is not 2).  The containment and
minimum parts still hold: the node is translated to (1, 1). -/
theorem translateGraph_width_cex :
    (translateGraph ⟨⟨none, none, none, none⟩, [("a", ⟨-10, -10, 2, 2⟩)], []⟩).graphLabel.width =
      some 11 ∧
    (translateGraph ⟨⟨none, none, none, none⟩, [("a", ⟨-10, -10, 2, 2⟩)], []⟩).nodes =
      [("a", ⟨1, 1, 2, 2⟩)] ∧
    (11 : ℚ) ≠ 2 + 2 * 0 := by
  refine ⟨?_, ?_, by norm_num⟩
  · simp only [translateGraph, tgMinX, tgMaxX, extremeBoxes, jsMin, List.map_cons,
      List.map_nil, List.filterMap_nil, List.append_nil, List.foldl_cons, List.foldl_nil,
      Option.getD_some, Option.getD_none]
    norm_num
  · simp only [translateGraph, tgMinX, tgMinY, extremeBoxes, jsMin, List.map_cons,
      List.map_nil, List.filterMap_nil, List.append_nil, List.foldl_cons, List.foldl_nil,
      Option.getD_some, Option.getD_none]
    norm_num

/-- Folding `jsMin` from a known value yields the minimum of the value
and the list: it bounds everything and is attained. -/
theorem foldl_jsMin_some (l : List ℚ) (a : ℚ) :
    ∃ m, l.foldl jsMin (some a) = some m ∧ m ≤ a ∧ (∀ q ∈ l, m ≤ q) ∧ (m = a ∨ m ∈ l) := by
  induction l generalizing a with
  | nil => exact ⟨a, rfl, le_refl a, by simp, Or.inl rfl⟩
  | cons q l ih =>
    obtain ⟨m, hm, hma, hml, hmem⟩ := ih (min a q)
    refine ⟨m, hm, le_trans hma (min_le_left _ _), ?_, ?_⟩
    · intro r hr
      rcases List.mem_cons.mp hr with h | h
      · rw [h]
        exact le_trans hma (min_le_right _ _)
      · exact hml r h
    · rcases hmem with h | h
      · rcases le_total a q with hq | hq
        · left
          rw [h, min_eq_left hq]
        · right
          exact List.mem_cons.mpr (Or.inl (by rw [h, min_eq_right hq]))
      · right
        exact List.mem_cons.mpr (Or.inr h)

/-- Folding `jsMin` from Infinity over a nonempty list yields the least
element of the list. -/
theorem foldl_jsMin_none (l : List ℚ) (hl : l ≠ []) :
    ∃ m, l.foldl jsMin none = some m ∧ (∀ q ∈ l, m ≤ q) ∧ m ∈ l := by
  match l, hl with
  | q :: l, _ =>
    obtain ⟨m, hm, hma, hml, hmem⟩ := foldl_jsMin_some l q
    refine ⟨m, ?_, ?_, ?_⟩
    · show l.foldl jsMin (jsMin none q) = some m
      exact hm
    · intro r hr
      rcases List.mem_cons.mp hr with h | h
      · rw [h]
        exact hma
      · exact hml r h
    · rcases hmem with h | h
      · exact List.mem_cons.mpr (Or.inl h)
      · exact List.mem_cons.mpr (Or.inr h)

/-- Folding `max` from a seed bounds the seed and the list and is
attained by the seed or by a list element. -/
theorem foldl_max_spec (l : List ℚ) (a : ℚ) :
    a ≤ l.foldl max a ∧ (∀ q ∈ l, q ≤ l.foldl max a) ∧
      (l.foldl max a = a ∨ l.foldl max a ∈ l) := by
  induction l generalizing a with
  | nil => exact ⟨le_refl a, by simp, Or.inl rfl⟩
  | cons q l ih =>
    obtain ⟨hma, hml, hmem⟩ := ih (max a q)
    refine ⟨le_trans (le_max_left a q) hma, ?_, ?_⟩
    · intro r hr
      rcases List.mem_cons.mp hr with h | h
      · rw [h]
        exact le_trans (le_max_right a q) hma
      · exact hml r h
    · have hstep : (q :: l).foldl max a = l.foldl max (max a q) := rfl
      rw [hstep]
      rcases hmem with h | h
      · rcases le_total a q with hq | hq
        · right
          exact List.mem_cons.mpr (Or.inl (by rw [h, max_eq_right hq]))
        · left
          rw [h, max_eq_left hq]
      · right
        exact List.mem_cons.mpr (Or.inr h)

/-- The boxes of the translated graph are the original boxes shifted by
the computed minima. -/
theorem extremeBoxes_translateGraph (g : TGraph) :
    extremeBoxes (translateGraph g) =
      (extremeBoxes g).map fun b =>
        ⟨b.x - tgMinX g, b.y - tgMinY g, b.width, b.height⟩ := by
  simp only [extremeBoxes, translateGraph, List.map_append, List.map_map,
    List.filterMap_map, List.map_filterMap]
  congr 1
  apply List.filterMap_congr
  intro e _
  simp only [Function.comp_apply, Option.map_map]
  rcases e.xy with _ | p <;> rfl

/-- Minimum of a box attribute over a nonempty box list, phrased on the
fold used by `translateGraph`. -/
theorem minBox_spec (f : TNode → ℚ) (l : List TNode) (hl : l ≠ []) :
    ∃ m, l.foldl (fun acc b => jsMin acc (f b)) none = some m ∧
      (∀ b ∈ l, m ≤ f b) ∧ ∃ b ∈ l, f b = m := by
  obtain ⟨m, hm, hlb, hmem⟩ := foldl_jsMin_none (l.map f) (by simpa using hl)
  simp only [List.foldl_map] at hm
  refine ⟨m, hm, ?_, ?_⟩
  · intro b hb
    exact hlb (f b) (List.mem_map_of_mem f hb)
  · obtain ⟨b, hb, hfb⟩ := List.mem_map.mp hmem
    exact ⟨b, hb, hfb⟩

/-- Maximum of a box attribute over a box list starting from 0, phrased
on the fold used by `translateGraph`: it is nonnegative, bounds every
box, and is 0 or attained. -/
theorem maxBox_spec (f : TNode → ℚ) (l : List TNode) :
    0 ≤ l.foldl (fun acc b => max acc (f b)) 0 ∧
      (∀ b ∈ l, f b ≤ l.foldl (fun acc b => max acc (f b)) 0) ∧
      (l.foldl (fun acc b => max acc (f b)) 0 = 0 ∨
        ∃ b ∈ l, f b = l.foldl (fun acc b => max acc (f b)) 0) := by
  obtain ⟨h0, hub, hmem⟩ := foldl_max_spec (l.map f) 0
  simp only [List.foldl_map] at h0 hub hmem
  refine ⟨h0, ?_, ?_⟩
  · intro b hb
    exact hub (f b) (List.mem_map_of_mem f hb)
  · rcases hmem with h | h
    · exact Or.inl h
    · obtain ⟨b, hb, hfb⟩ := List.mem_map.mp h
      exact Or.inr ⟨b, hb, hfb⟩

/-- C4 amended: for a graph with at least one node, after
`translateGraph` every node box and edge-label box lies within the
margins, the least box edge sits exactly on the margin in each axis, and
the canvas width (resp. height) is the bounding-box span with the
maximum clamped below at 0, plus twice the margin; the claimed plain
span formula holds only when that clamp does not bite. -/
theorem translateGraph_spec (g : TGraph) (hg : g.nodes ≠ []) :
    ∃ W H,
      (translateGraph g).graphLabel.width = some W ∧
      (translateGraph g).graphLabel.height = some H ∧
      (∀ b ∈ extremeBoxes (translateGraph g),
        g.graphLabel.marginx.getD 0 ≤ b.x - b.width / 2 ∧
        b.x + b.width / 2 ≤ W - g.graphLabel.marginx.getD 0 ∧
        g.graphLabel.marginy.getD 0 ≤ b.y - b.height / 2 ∧
        b.y + b.height / 2 ≤ H - g.graphLabel.marginy.getD 0) ∧
      (∃ b ∈ extremeBoxes (translateGraph g),
        b.x - b.width / 2 = g.graphLabel.marginx.getD 0) ∧
      (∃ b ∈ extremeBoxes (translateGraph g),
        b.y - b.height / 2 = g.graphLabel.marginy.getD 0) ∧
      (∃ lo hi, (∀ b ∈ extremeBoxes g, lo ≤ b.x - b.width / 2) ∧
        (∃ b ∈ extremeBoxes g, b.x - b.width / 2 = lo) ∧
        0 ≤ hi ∧ (∀ b ∈ extremeBoxes g, b.x + b.width / 2 ≤ hi) ∧
        (hi = 0 ∨ ∃ b ∈ extremeBoxes g, b.x + b.width / 2 = hi) ∧
        W = hi - lo + 2 * g.graphLabel.marginx.getD 0) ∧
      (∃ lo hi, (∀ b ∈ extremeBoxes g, lo ≤ b.y - b.height / 2) ∧
        (∃ b ∈ extremeBoxes g, b.y - b.height / 2 = lo) ∧
        0 ≤ hi ∧ (∀ b ∈ extremeBoxes g, b.y + b.height / 2 ≤ hi) ∧
        (hi = 0 ∨ ∃ b ∈ extremeBoxes g, b.y + b.height / 2 = hi) ∧
        H = hi - lo + 2 * g.graphLabel.marginy.getD 0) := by
  have hboxes : extremeBoxes g ≠ [] := by
    intro hempty
    apply hg
    have hsplit := List.append_eq_nil.mp hempty
    exact List.map_eq_nil_iff.mp hsplit.1
  obtain ⟨loX, hloXeq, hloXlb, bX, hbX, hbXeq⟩ :=
    minBox_spec (fun b => b.x - b.width / 2) (extremeBoxes g) hboxes
  obtain ⟨loY, hloYeq, hloYlb, bY, hbY, hbYeq⟩ :=
    minBox_spec (fun b => b.y - b.height / 2) (extremeBoxes g) hboxes
  obtain ⟨hhiX0, hhiXub, hhiXmem⟩ := maxBox_spec (fun b => b.x + b.width / 2) (extremeBoxes g)
  obtain ⟨hhiY0, hhiYub, hhiYmem⟩ := maxBox_spec (fun b => b.y + b.height / 2) (extremeBoxes g)
  have hX0 : 0 ≤ tgMaxX g := hhiX0
  have hXub : ∀ b ∈ extremeBoxes g, b.x + b.width / 2 ≤ tgMaxX g := hhiXub
  have hXmem : tgMaxX g = 0 ∨ ∃ b ∈ extremeBoxes g, b.x + b.width / 2 = tgMaxX g := hhiXmem
  have hY0 : 0 ≤ tgMaxY g := hhiY0
  have hYub : ∀ b ∈ extremeBoxes g, b.y + b.height / 2 ≤ tgMaxY g := hhiYub
  have hYmem : tgMaxY g = 0 ∨ ∃ b ∈ extremeBoxes g, b.y + b.height / 2 = tgMaxY g := hhiYmem
  have htgMinX : tgMinX g = loX - g.graphLabel.marginx.getD 0 := by
    unfold tgMinX
    rw [hloXeq]
    rfl
  have htgMinY : tgMinY g = loY - g.graphLabel.marginy.getD 0 := by
    unfold tgMinY
    rw [hloYeq]
    rfl
  refine ⟨tgMaxX g - tgMinX g + g.graphLabel.marginx.getD 0,
    tgMaxY g - tgMinY g + g.graphLabel.marginy.getD 0, rfl, rfl, ?_, ?_, ?_, ?_, ?_⟩
  · intro b1 hb1
    rw [extremeBoxes_translateGraph] at hb1
    obtain ⟨b, hb, rfl⟩ := List.mem_map.mp hb1
    have h1 := hloXlb b hb
    have h2 := hXub b hb
    have h3 := hloYlb b hb
    have h4 := hYub b hb
    dsimp only at h1 h2 h3 h4 ⊢
    rw [htgMinX, htgMinY]
    refine ⟨by linarith, by linarith, by linarith, by linarith⟩
  · rw [extremeBoxes_translateGraph]
    refine ⟨_, List.mem_map_of_mem _ hbX, ?_⟩
    dsimp only at hbXeq ⊢
    rw [htgMinX]
    linarith [hbXeq]
  · rw [extremeBoxes_translateGraph]
    refine ⟨_, List.mem_map_of_mem _ hbY, ?_⟩
    dsimp only at hbYeq ⊢
    rw [htgMinY]
    linarith [hbYeq]
  · refine ⟨loX, tgMaxX g, hloXlb, ⟨bX, hbX, hbXeq⟩, hX0, hXub, hXmem, ?_⟩
    rw [htgMinX]
    ring
  · refine ⟨loY, tgMaxY g, hloYlb, ⟨bY, hbY, hbYeq⟩, hY0, hYub, hYmem, ?_⟩
    rw [htgMinY]
    ring

/-- Witness for C4 (amended) at a concrete one-node graph. -/
theorem translateGraph_spec_witness :
    ∃ W H,
      (translateGraph ⟨⟨none, none, none, none⟩, [("a", ⟨1, 2, 4, 6⟩)], []⟩).graphLabel.width =
        some W ∧
      (translateGraph ⟨⟨none, none, none, none⟩, [("a", ⟨1, 2, 4, 6⟩)], []⟩).graphLabel.height =
        some H ∧
      (∀ b ∈ extremeBoxes (translateGraph ⟨⟨none, none, none, none⟩, [("a", ⟨1, 2, 4, 6⟩)], []⟩),
        (0 : ℚ) ≤ b.x - b.width / 2 ∧
        b.x + b.width / 2 ≤ W - (0 : ℚ) ∧
        (0 : ℚ) ≤ b.y - b.height / 2 ∧
        b.y + b.height / 2 ≤ H - (0 : ℚ)) ∧
      (∃ b ∈ extremeBoxes (translateGraph ⟨⟨none, none, none, none⟩, [("a", ⟨1, 2, 4, 6⟩)], []⟩),
        b.x - b.width / 2 = (0 : ℚ)) ∧
      (∃ b ∈ extremeBoxes (translateGraph ⟨⟨none, none, none, none⟩, [("a", ⟨1, 2, 4, 6⟩)], []⟩),
        b.y - b.height / 2 = (0 : ℚ)) ∧
      (∃ lo hi,
        (∀ b ∈ extremeBoxes (⟨⟨none, none, none, none⟩, [("a", ⟨1, 2, 4, 6⟩)], []⟩ : TGraph),
          lo ≤ b.x - b.width / 2) ∧
        (∃ b ∈ extremeBoxes (⟨⟨none, none, none, none⟩, [("a", ⟨1, 2, 4, 6⟩)], []⟩ : TGraph),
          b.x - b.width / 2 = lo) ∧
        0 ≤ hi ∧
        (∀ b ∈ extremeBoxes (⟨⟨none, none, none, none⟩, [("a", ⟨1, 2, 4, 6⟩)], []⟩ : TGraph),
          b.x + b.width / 2 ≤ hi) ∧
        (hi = 0 ∨ ∃ b ∈ extremeBoxes (⟨⟨none, none, none, none⟩,
          [("a", ⟨1, 2, 4, 6⟩)], []⟩ : TGraph), b.x + b.width / 2 = hi) ∧
        W = hi - lo + 2 * (0 : ℚ)) ∧
      (∃ lo hi,
        (∀ b ∈ extremeBoxes (⟨⟨none, none, none, none⟩, [("a", ⟨1, 2, 4, 6⟩)], []⟩ : TGraph),
          lo ≤ b.y - b.height / 2) ∧
        (∃ b ∈ extremeBoxes (⟨⟨none, none, none, none⟩, [("a", ⟨1, 2, 4, 6⟩)], []⟩ : TGraph),
          b.y - b.height / 2 = lo) ∧
        0 ≤ hi ∧
        (∀ b ∈ extremeBoxes (⟨⟨none, none, none, none⟩, [("a", ⟨1, 2, 4, 6⟩)], []⟩ : TGraph),
          b.y + b.height / 2 ≤ hi) ∧
        (hi = 0 ∨ ∃ b ∈ extremeBoxes (⟨⟨none, none, none, none⟩,
          [("a", ⟨1, 2, 4, 6⟩)], []⟩ : TGraph), b.y + b.height / 2 = hi) ∧
        H = hi - lo + 2 * (0 : ℚ)) :=
  translateGraph_spec ⟨⟨none, none, none, none⟩, [("a", ⟨1, 2, 4, 6⟩)], []⟩ (by simp)

/-! ## assignRankMinMax (src/layout.ts, lines 254-264) -/

/-- Node label fields used by `assignRankMinMax`. -/
structure RNode where
  rank : Option ℚ
  minRank : Option ℚ
  maxRank : Option ℚ
  borderTop : Option String
  borderBottom : Option String
deriving DecidableEq, Repr

/-- Graph view for `assignRankMinMax`: nodes in iteration order and the
`maxRank` slot of the graph label. -/
structure RGraph where
  nodes : List (String × RNode)
  graphMaxRank : Option ℚ
deriving DecidableEq, Repr

/-- Node lookup `g.node(v)`. -/
def rnode (g : RGraph) (v : String) : Option RNode :=
  (g.nodes.find? fun p => p.1 = v).map Prod.snd

/-- Lodash `_.max(a, b)` called with two plain numbers: `_.max` expects
an array-like collection as its single argument, a number is not
array-like, and extra arguments are ignored, so the call returns
`undefined`. -/
def lodashMax (_a : ℚ) (_b : Option ℚ) : Option ℚ := none

/-- Write a node label back under its id (object mutation in the
source). -/
def rsetNode (g : RGraph) (v : String) (lbl : RNode) : RGraph :=
  { g with nodes := g.nodes.map fun p => if p.1 = v then (p.1, lbl) else p }

/-- Shallow embedding of `assignRankMinMax(g)` from src/layout.ts.  The
body of the loop `for (const v of g.nodes()) var node = g.node(v)` is
just the declaration, so after the loop `node` holds the label of the
LAST node (or undefined on an empty graph, making `node.borderTop`
throw), and the `if (node.borderTop)` block runs once, on that last
node only.  Inside the block `maxRank = _.max(maxRank, node.maxRank)`
misuses lodash and yields undefined.  Border ids produced by the
pipeline are nonempty strings, so the truthiness test on `borderTop` is
presence. -/
def assignRankMinMax (g : RGraph) : Except String RGraph :=
  match g.nodes.getLast? with
  | none => .error "TypeError: reading borderTop of undefined"
  | some (v, node) =>
    match node.borderTop with
    | none => .ok { g with graphMaxRank := some 0 }
    | some bt =>
      match rnode g bt with
      | none => .error "TypeError: reading rank of undefined"
      | some btNode =>
        match node.borderBottom with
        | none => .error "TypeError: reading rank of undefined"
        | some bb =>
          match rnode g bb with
          | none => .error "TypeError: reading rank of undefined"
          | some bbNode =>
            let node1 := { node with minRank := btNode.rank, maxRank := bbNode.rank }
            .ok { rsetNode g v node1 with graphMaxRank := lodashMax 0 node1.maxRank }

/-- Concrete graph for C8: two compound parents `p` and `q`, each with
ranked borderTop and borderBottom dummies, the dummies last in
iteration order. -/
def c8Graph : RGraph :=
  { nodes := [
      ("p", ⟨none, none, none, some "pt", some "pb"⟩),
      ("q", ⟨none, none, none, some "qt", some "qb"⟩),
      ("pt", ⟨some 0, none, none, none, none⟩),
      ("pb", ⟨some 3, none, none, none, none⟩),
      ("qt", ⟨some 1, none, none, none, none⟩),
      ("qb", ⟨some 2, none, none, none, none⟩)]
    graphMaxRank := none }

/-- C8: on `c8Graph` the code leaves both compound parents without
`minRank` and `maxRank` (the claim requires `p` to get 0 and 3, and `q`
to get 1 and 2) and sets the graph `maxRank` to 0 instead of 3, because
the loop body only assigns the scratch variable and the update block
sees just the last node, which has no `borderTop`. -/
theorem assignRankMinMax_last_node_only :
    assignRankMinMax c8Graph = .ok { c8Graph with graphMaxRank := some 0 } ∧
    rnode c8Graph "p" = some ⟨none, none, none, some "pt", some "pb"⟩ ∧
    rnode c8Graph "q" = some ⟨none, none, none, some "qt", some "qb"⟩ ∧
    some (0 : ℚ) ≠ some (3 : ℚ) := by
  refine ⟨rfl, rfl, rfl, ?_⟩
  simp

/-! ## Doubly linked list with sentinel (src/data/list.ts)

JavaScript objects are mutable and shared by reference, so the list is
modelled over an explicit heap: objects are addressed by numeric ids,
and the `_prev` and `_next` fields hold optional ids (`none` models an
absent field). -/

/-- One heap object: the `_prev` and `_next` references plus an opaque
payload for the remaining fields. -/
structure HObj (α : Type) where
  prev : Option ℕ
  next : Option ℕ
  data : α
deriving DecidableEq, Repr

/-- Heap of objects: a total map from ids; ids never allocated map to a
default object with no links. -/
def Heap (α : Type) := ℕ → HObj α

/-- Pointwise heap update. -/
def hupd {α : Type} (h : Heap α) (k : ℕ) (e : HObj α) : Heap α :=
  fun k1 => if k1 = k then e else h k1

theorem hupd_self {α : Type} (h : Heap α) (k : ℕ) (e : HObj α) : hupd h k e k = e := by
  simp [hupd]

theorem hupd_other {α : Type} (h : Heap α) (k k1 : ℕ) (e : HObj α) (hne : k1 ≠ k) :
    hupd h k e k1 = h k1 := by
  simp [hupd, hne]

/-- A `new List()`: allocate a sentinel object whose `_prev` and
`_next` point at itself. -/
def newList {α : Type} (h : Heap α) (s : ℕ) (d : α) : Heap α :=
  hupd h s ⟨some s, some s, d⟩

/-- `unlink(entry)` from src/data/list.ts: rewire the two neighbors past
the entry.  The two `delete` statements of the upstream version are
commented out in this source, so the entry keeps its own (now stale)
`_prev` and `_next`.  Accessing a field of an undefined neighbor
throws. -/
def unlink {α : Type} (h : Heap α) (x : ℕ) : Except String (Heap α) :=
  match (h x).prev, (h x).next with
  | some p, some n =>
    let h1 := hupd h p { h p with next := some n }
    let h2 := hupd h1 n { h1 n with prev := some p }
    .ok h2
  | _, _ => .error "TypeError: unlink of undefined"

/-- `dequeue()` from src/data/list.ts: read the sentinel `_prev` entry;
when it is the sentinel itself the list is empty and undefined (`none`)
is returned, otherwise the entry is unlinked and returned. -/
def dequeue {α : Type} (h : Heap α) (s : ℕ) : Except String (Option ℕ × Heap α) :=
  match (h s).prev with
  | none => .error "TypeError: unlink of undefined"
  | some e =>
    if e = s then .ok (none, h)
    else do
      let h1 ← unlink h e
      .ok (some e, h1)

/-- The four heap writes of a successful insertion, with `t` the value
of `sentinel._next` at entry time (writing `entry._next := some t` is
the same write the source performs with `entry._next = sentinel._next`,
because the first assignment cannot change `sentinel._next`). -/
def pushWrites {α : Type} (h : Heap α) (s x t : ℕ) : Heap α :=
  let h1 := hupd h x { h x with next := some t }
  let h2 := hupd h1 t { h1 t with prev := some x }
  let h3 := hupd h2 s { h2 s with next := some x }
  hupd h3 x { h3 x with prev := some s }

/-- The insertion part of `enqueue(entry)`: the four assignments of the
source in order, with every field read performed on the current heap. -/
def enqueuePush {α : Type} (h : Heap α) (s x : ℕ) : Except String (Heap α) :=
  let h1 := hupd h x { h x with next := (h s).next }
  match (h1 s).next with
  | none => .error "TypeError: set _prev of undefined"
  | some t => .ok (pushWrites h s x t)

/-- `enqueue(entry)` from src/data/list.ts: when the entry has both
links set it is first unlinked — because `unlink` never clears links,
this guard also fires for entries that were dequeued earlier, re-running
`unlink` on their former neighbors — and then the entry is inserted
right after the sentinel. -/
def enqueue {α : Type} (h : Heap α) (s x : ℕ) : Except String (Heap α) := do
  let h0 ← if (h x).prev.isSome ∧ (h x).next.isSome then unlink h x else pure h
  enqueuePush h0 s x

/-- Heap with no objects allocated yet. -/
def emptyHeap : Heap Unit := fun _ => ⟨none, none, ()⟩

/-- The C10 counterexample run.  Lists A (sentinel 0) and B (sentinel 1);
entries 2 and 3.  Enqueue 2 then 3 into A, dequeue both from A (returning
2 then 3), then enqueue 3 and 2 into B and dequeue twice from B.  The
claim predicts the B dequeues return 3 then 2. -/
def c10Run : Except String (Option ℕ × Option ℕ) := do
  let h := newList (newList emptyHeap 0 ()) 1 ()
  let h ← enqueue h 0 2
  let h ← enqueue h 0 3
  let (_, h) ← dequeue h 0
  let (_, h) ← dequeue h 0
  let h ← enqueue h 1 3
  let h ← enqueue h 1 2
  let (r1, h) ← dequeue h 1
  let (r2, _) ← dequeue h 1
  .ok (r1, r2)

/-- C10 counterexample: after dequeuing entries 2 and 3 from list A and
enqueueing 3 then 2 into list B, the stale `unlink` performed by the
second enqueue corrupts B, and both B dequeues return entry 3 — entry 3
is dequeued twice and entry 2 never, while the claim predicts the
dequeues return 3 then 2. -/
theorem listDequeueTwice_cex : c10Run = .ok (some 3, some 3) ∧
    (some 3 : Option ℕ) ≠ some 2 := by
  refine ⟨?_, by decide⟩
  rfl

/-- Doubly linked segment: the `_next` chain runs from `p` through `xs`
to `q`, with the matching `_prev` pointer at every link. -/
def seg {α : Type} (h : Heap α) : ℕ → List ℕ → ℕ → Prop
  | p, [], q => (h p).next = some q ∧ (h q).prev = some p
  | p, x :: xs, q => (h p).next = some x ∧ (h x).prev = some p ∧ seg h x xs q

/-- A live list: the ring from sentinel `s` carries the entries of `L`
in dequeue order (oldest first; the `_next` chain from the sentinel
meets them newest first), all distinct and distinct from the
sentinel. -/
def listRep {α : Type} (h : Heap α) (s : ℕ) (L : List ℕ) : Prop :=
  seg h s L.reverse s ∧ (s :: L).Nodup

theorem seg_append {α : Type} (h : Heap α) (p x q : ℕ) (xs ys : List ℕ) :
    seg h p (xs ++ x :: ys) q ↔ seg h p xs x ∧ seg h x ys q := by
  induction xs generalizing p with
  | nil => simp [seg, and_assoc]
  | cons z zs ih => simp [seg, ih, and_assoc]

theorem seg_next_head {α : Type} (h : Heap α) (p q : ℕ) (xs : List ℕ) (hs : seg h p xs q) :
    (h p).next = some (xs.headD q) := by
  cases xs with
  | nil => exact hs.1
  | cons x xs => exact hs.1

theorem seg_prev_mem {α : Type} (h : Heap α) (q : ℕ) (xs : List ℕ) :
    ∀ p, seg h p xs q → ∃ P, (h q).prev = some P ∧ P ∈ p :: xs ∧ (h P).next = some q := by
  induction xs with
  | nil => exact fun p hs => ⟨p, hs.2, by simp, hs.1⟩
  | cons x xs ih =>
    intro p hs
    obtain ⟨P, h1, h2, h3⟩ := ih x hs.2.2
    refine ⟨P, h1, ?_, h3⟩
    simp only [List.mem_cons] at h2 ⊢
    tauto

theorem seg_of_eq {α : Type} (h h' : Heap α) (q : ℕ) (xs : List ℕ) :
    ∀ p, seg h p xs q →
      (∀ k ∈ p :: xs, (h' k).next = (h k).next) →
      (∀ k ∈ xs ++ [q], (h' k).prev = (h k).prev) →
      seg h' p xs q := by
  induction xs with
  | nil =>
    intro p hs hnext hprev
    exact ⟨by rw [hnext p (by simp)]; exact hs.1, by rw [hprev q (by simp)]; exact hs.2⟩
  | cons x xs ih =>
    intro p hs hnext hprev
    refine ⟨by rw [hnext p (by simp)]; exact hs.1,
      by rw [hprev x (by simp)]; exact hs.2.1, ?_⟩
    refine ih x hs.2.2 (fun k hk => hnext k ?_) (fun k hk => hprev k ?_)
    · simp only [List.mem_cons] at hk ⊢
      tauto
    · simp only [List.mem_append, List.mem_cons] at hk ⊢
      tauto

/-- Retargeting a segment ending at `e` to end at `N` instead, on a heap
that rewrote the `_next` of the old last link source `P` to `N` and the
`_prev` of `N` to `P` — the effect of `unlink(e)` seen from the left
part of the ring. -/
theorem seg_retarget {α : Type} (h h' : Heap α) (e N P : ℕ)
    (hP : (h e).prev = some P) (hPn : (h P).next = some e)
    (hnext : ∀ k, (h' k).next = if k = P then some N else (h k).next)
    (hprev : ∀ k, (h' k).prev = if k = N then some P else (h k).prev) :
    ∀ p xs, seg h p xs e → e ∉ p :: xs → N ∉ xs → seg h' p xs N := by
  intro p xs
  induction xs generalizing p with
  | nil =>
    intro hs _ _
    have hPp : P = p := by
      have := hs.2
      rw [this] at hP
      exact (Option.some_inj.mp hP).symm
    subst hPp
    exact ⟨by rw [hnext P]; simp, by rw [hprev N]; simp⟩
  | cons x xs ih =>
    intro hs hep hN
    have hpP : p ≠ P := by
      intro hc
      subst hc
      have h1 : (h p).next = some x := hs.1
      rw [hPn] at h1
      have hx : e = x := Option.some_inj.mp h1
      exact hep (by simp [hx])
    have hxN : x ≠ N := by
      intro hc
      exact hN (by simp [hc])
    refine ⟨by rw [hnext p, if_neg hpP]; exact hs.1,
      by rw [hprev x, if_neg hxN]; exact hs.2.1, ?_⟩
    refine ih x hs.2.2 ?_ ?_
    · intro hc
      apply hep
      simp only [List.mem_cons] at hc ⊢
      tauto
    · intro hc
      exact hN (by simp [hc])

/-- The `_next` field of every object after the two writes performed by
a successful `unlink`. -/
theorem unlink_heap_next {α : Type} (h : Heap α) (P N k : ℕ) :
    ((hupd (hupd h P { h P with next := some N }) N
      { (hupd h P { h P with next := some N }) N with prev := some P }) k).next =
    if k = P then some N else (h k).next := by
  by_cases hkN : k = N
  · rw [hkN, hupd_self]
    show ((hupd h P { h P with next := some N }) N).next =
      if N = P then some N else (h N).next
    by_cases hNP : N = P
    · rw [hNP, hupd_self, if_pos rfl]
    · rw [hupd_other _ _ _ _ hNP, if_neg hNP]
  · rw [hupd_other _ _ _ _ hkN]
    by_cases hkP : k = P
    · rw [hkP, hupd_self, if_pos rfl]
    · rw [hupd_other _ _ _ _ hkP, if_neg hkP]

/-- The `_prev` field of every object after the two writes performed by
a successful `unlink`. -/
theorem unlink_heap_prev {α : Type} (h : Heap α) (P N k : ℕ) :
    ((hupd (hupd h P { h P with next := some N }) N
      { (hupd h P { h P with next := some N }) N with prev := some P }) k).prev =
    if k = N then some P else (h k).prev := by
  by_cases hkN : k = N
  · rw [hkN, hupd_self, if_pos rfl]
  · rw [hupd_other _ _ _ _ hkN, if_neg hkN]
    by_cases hkP : k = P
    · rw [hkP, hupd_self]
    · rw [hupd_other _ _ _ _ hkP]

/-- Effect of `unlink(e)` on a ring `s → M1 → e → M2 → s`: the call
succeeds and the ring becomes `s → M1 ++ M2 → s`; only the two ring
neighbors of `e` are written (in particular `e` itself keeps its stale
links). -/
theorem unlink_surgery {α : Type} (h : Heap α) (s e : ℕ) (M1 M2 : List ℕ)
    (hseg1 : seg h s M1 e) (hseg2 : seg h e M2 s)
    (hes : e ≠ s) (hsM1 : s ∉ M1) (hsM2 : s ∉ M2) (heM1 : e ∉ M1) (heM2 : e ∉ M2)
    (hM2 : M2.Nodup) (hdisj : ∀ k ∈ M1, k ∉ M2) :
    ∃ h', unlink h e = .ok h' ∧ seg h' s (M1 ++ M2) s ∧
      ∀ k, k ≠ s → k ∉ M1 → k ∉ M2 → h' k = h k := by
  obtain ⟨P, hP, hPmem, hPn⟩ := seg_prev_mem h e M1 s hseg1
  have hNeq : (h e).next = some (M2.headD s) := seg_next_head h e s M2 hseg2
  refine ⟨hupd (hupd h P { h P with next := some (M2.headD s) }) (M2.headD s)
      { (hupd h P { h P with next := some (M2.headD s) }) (M2.headD s) with prev := some P },
    ?_, ?_, ?_⟩
  · unfold unlink
    rw [hP, hNeq]
  · have hnext := unlink_heap_next h P (M2.headD s)
    have hprev := unlink_heap_prev h P (M2.headD s)
    cases hM2c : M2 with
    | nil =>
      rw [List.append_nil]
      subst hM2c
      refine seg_retarget h _ e s P hP hPn hnext hprev s M1 hseg1 ?_ ?_
      · intro hc
        rcases List.mem_cons.mp hc with hc | hc
        · exact hes hc
        · exact heM1 hc
      · exact hsM1
    | cons n M2r =>
      subst hM2c
      rw [seg_append]
      constructor
      · refine seg_retarget h _ e n P hP hPn (by simpa using hnext) (by simpa using hprev)
          s M1 hseg1 ?_ ?_
        · intro hc
          rcases List.mem_cons.mp hc with hc | hc
          · exact hes hc
          · exact heM1 hc
        · intro hc
          exact hdisj n hc (by simp)
      · refine seg_of_eq h _ s M2r n hseg2.2.2 (fun k hk => ?_) (fun k hk => ?_)
        · rw [hnext k, if_neg]
          intro hc
          subst hc
          rcases List.mem_cons.mp hPmem with hc | hc
          · exact hsM2 (hc ▸ hk)
          · exact hdisj k hc hk
        · rw [hprev k, if_neg]
          simp only [List.mem_append, List.mem_cons, List.mem_singleton] at hk
          intro hc
          simp only [List.headD_cons] at hc
          rcases hk with hk | hk | hk
          · exact (List.nodup_cons.mp hM2).1 (hc ▸ hk)
          · exact hsM2 (List.mem_cons.mpr (Or.inl (hk ▸ hc)))
          · exact absurd hk (List.not_mem_nil k)
  · intro k hks hk1 hk2
    have hkP : k ≠ P := by
      intro hc
      rcases List.mem_cons.mp hPmem with hm | hm
      · exact hks (hc.trans hm)
      · exact hk1 (hc ▸ hm)
    have hkN : k ≠ M2.headD s := by
      cases hM2c : M2 with
      | nil => simpa [hM2c] using hks
      | cons n M2r =>
        simp only [hM2c, List.headD_cons]
        intro hc
        exact hk2 (by simp [hM2c, hc])
    rw [hupd_other _ _ _ _ hkN, hupd_other _ _ _ _ hkP]

/-- The `_next` field of every object after a push of `x` in front. -/
theorem pushWrites_next {α : Type} (h : Heap α) (s x t k : ℕ)
    (hxs : x ≠ s) (hxt : x ≠ t) :
    (pushWrites h s x t k).next =
      if k = x then some t else if k = s then some x else (h k).next := by
  by_cases hkx : k = x <;> by_cases hks : k = s <;> by_cases hkt : k = t <;>
    simp_all [pushWrites, hupd]

/-- The `_prev` field of every object after a push of `x` in front. -/
theorem pushWrites_prev {α : Type} (h : Heap α) (s x t k : ℕ)
    (hxs : x ≠ s) (hxt : x ≠ t) :
    (pushWrites h s x t k).prev =
      if k = x then some s else if k = t then some x else (h k).prev := by
  by_cases hkx : k = x <;> by_cases hks : k = s <;> by_cases hkt : k = t <;>
    simp_all [pushWrites, hupd]

/-- Objects other than the entry, the sentinel and the old front are
untouched by a push. -/
theorem pushWrites_frame {α : Type} (h : Heap α) (s x t k : ℕ)
    (h1 : k ≠ x) (h2 : k ≠ t) (h3 : k ≠ s) : pushWrites h s x t k = h k := by
  simp [pushWrites, hupd, h1, h2, h3]

/-- Dequeue on an empty list returns nothing and leaves the heap
unchanged. -/
theorem dequeue_empty {α : Type} (h : Heap α) (s : ℕ) (hrep : listRep h s []) :
    dequeue h s = .ok (none, h) := by
  have hsp : (h s).prev = some s := hrep.1.2
  unfold dequeue
  rw [hsp]
  simp

/-- Dequeue on a nonempty list returns the oldest entry and represents
the rest; only the sentinel and the entry neighbors change. -/
theorem dequeue_rep {α : Type} (h : Heap α) (s a : ℕ) (L : List ℕ)
    (hrep : listRep h s (a :: L)) :
    ∃ h', dequeue h s = .ok (some a, h') ∧ listRep h' s L ∧
      ∀ k, k ≠ s → k ∉ a :: L → h' k = h k := by
  obtain ⟨hseg, hnd⟩ := hrep
  have hrev : (a :: L).reverse = L.reverse ++ a :: ([] : List ℕ) := by simp
  rw [hrev, seg_append] at hseg
  obtain ⟨hseg1, hseg2⟩ := hseg
  have hsp : (h s).prev = some a := hseg2.2
  have hsmem : s ∉ a :: L := (List.nodup_cons.mp hnd).1
  have has : a ≠ s := fun hc => hsmem (by simp [hc])
  have hndTail : (a :: L).Nodup := (List.nodup_cons.mp hnd).2
  have haL : a ∉ L := (List.nodup_cons.mp hndTail).1
  have hLnd : L.Nodup := (List.nodup_cons.mp hndTail).2
  obtain ⟨h', hun, hseg', hframe⟩ := unlink_surgery h s a L.reverse [] hseg1 hseg2
    has
    (by simpa using fun hc => hsmem (List.mem_cons_of_mem a hc))
    (by simp)
    (by simpa using haL)
    (by simp)
    (by simp)
    (by simp)
  refine ⟨h', ?_, ⟨by simpa using hseg', ?_⟩, ?_⟩
  · unfold dequeue
    rw [hsp]
    show (if a = s then Except.ok (none, h)
      else do
        let h1 ← unlink h a
        Except.ok (some a, h1)) = Except.ok (some a, h')
    rw [if_neg has, hun]
    rfl
  · exact List.nodup_cons.mpr ⟨fun hc => hsmem (List.mem_cons_of_mem a hc), hLnd⟩
  · intro k hks hkL
    exact hframe k hks
      (by simpa using fun hc => hkL (List.mem_cons_of_mem a hc))
      (by simp)

/-- Successful push of an entry not in the ring: the entry becomes the
newest element. -/
theorem enqueuePush_rep {α : Type} (h : Heap α) (s e : ℕ) (L : List ℕ)
    (hrep : listRep h s L) (hes : e ≠ s) (heL : e ∉ L) :
    ∃ h', enqueuePush h s e = .ok h' ∧ listRep h' s (L ++ [e]) ∧
      ∀ k, k ≠ s → k ≠ e → k ∉ L → h' k = h k := by
  obtain ⟨hseg, hnd⟩ := hrep
  have hsmem : s ∉ L := (List.nodup_cons.mp hnd).1
  have hsn : (h s).next = some (L.reverse.headD s) := seg_next_head h s s L.reverse hseg
  have het : e ≠ L.reverse.headD s := by
    cases hLrev : L.reverse with
    | nil => simpa using hes
    | cons t0 rest =>
      simp only [List.headD_cons]
      intro hc
      apply heL
      rw [← List.mem_reverse, hLrev, hc]
      exact List.mem_cons_self t0 rest
  have h1s : (hupd h e { h e with next := (h s).next }) s = h s :=
    hupd_other _ _ _ _ (Ne.symm hes)
  refine ⟨pushWrites h s e (L.reverse.headD s), ?_, ⟨?_, ?_⟩, ?_⟩
  · unfold enqueuePush
    show (match ((hupd h e { h e with next := (h s).next }) s).next with
      | none => Except.error "TypeError: set _prev of undefined"
      | some t => Except.ok (pushWrites h s e t)) = _
    rw [h1s, hsn]
  · -- the new ring
    rw [show (L ++ [e]).reverse = e :: L.reverse by simp]
    cases hLrev : L.reverse with
    | nil =>
      rw [hLrev] at het
      simp only [List.headD_nil] at het ⊢
      refine ⟨?_, ?_, ?_, ?_⟩
      · rw [pushWrites_next h s e s s hes het, if_neg (Ne.symm hes), if_pos rfl]
      · rw [pushWrites_prev h s e s e hes het, if_pos rfl]
      · rw [pushWrites_next h s e s e hes het, if_pos rfl]
      · rw [pushWrites_prev h s e s s hes het, if_neg (Ne.symm hes), if_pos rfl]
    | cons t0 rest =>
      rw [hLrev] at het
      simp only [List.headD_cons] at het ⊢
      have ht0L : t0 ∈ L := by
        rw [← List.mem_reverse, hLrev]
        exact List.mem_cons_self t0 rest
      have ht0s : t0 ≠ s := fun hc => hsmem (hc ▸ ht0L)
      have hrest : seg h t0 rest s := by
        rw [hLrev] at hseg
        exact hseg.2.2
      have hndrev : (t0 :: rest).Nodup := by
        rw [← hLrev]
        exact List.nodup_reverse.mpr (List.nodup_cons.mp hnd).2
      refine ⟨?_, ?_, ?_, ?_, ?_⟩
      · rw [pushWrites_next h s e t0 s hes het, if_neg (Ne.symm hes), if_pos rfl]
      · rw [pushWrites_prev h s e t0 e hes het, if_pos rfl]
      · rw [pushWrites_next h s e t0 e hes het, if_pos rfl]
      · rw [pushWrites_prev h s e t0 t0 hes het, if_neg (fun hc => het hc.symm), if_pos rfl]
      · refine seg_of_eq h _ s rest t0 hrest (fun k hk => ?_) (fun k hk => ?_)
        · have hkL : k ∈ L := by
            rw [← List.mem_reverse, hLrev]
            exact hk
          rw [pushWrites_next h s e t0 k hes het,
            if_neg (fun hc : k = e => heL (hc ▸ hkL)),
            if_neg (fun hc : k = s => hsmem (hc ▸ hkL))]
        · simp only [List.mem_append, List.mem_singleton] at hk
          have hke : k ≠ e := by
            rcases hk with hk | hk
            · intro hc
              apply heL
              rw [← List.mem_reverse, hLrev, ← hc]
              exact List.mem_cons_of_mem t0 hk
            · intro hc
              exact hes (hc.symm.trans hk)
          have hkt0 : k ≠ t0 := by
            rcases hk with hk | hk
            · intro hc
              exact (List.nodup_cons.mp hndrev).1 (hc ▸ hk)
            · intro hc
              exact ht0s (hk ▸ hc).symm
          rw [pushWrites_prev h s e t0 k hes het, if_neg hke, if_neg hkt0]
  · -- Nodup
    refine List.nodup_cons.mpr ⟨?_, ?_⟩
    · simp only [List.mem_append, List.mem_singleton]
      rintro (hc | hc)
      · exact hsmem hc
      · exact hes hc.symm
    · refine List.Nodup.append (List.nodup_cons.mp hnd).2 (by simp) ?_
      intro a ha hb
      simp only [List.mem_singleton] at hb
      exact heL (hb ▸ ha)
  · intro k hks hke hkL
    refine pushWrites_frame h s e _ k hke ?_ hks
    cases hLrev : L.reverse with
    | nil => simpa using hks
    | cons t0 rest =>
      simp only [List.headD_cons]
      intro hc
      apply hkL
      rw [← List.mem_reverse, hLrev, hc]
      exact List.mem_cons_self t0 rest

/-- Enqueue of an entry with an absent `_prev` link: the relocation
guard is skipped and the entry is pushed in front. -/
theorem enqueue_fresh_rep {α : Type} (h : Heap α) (s e : ℕ) (L : List ℕ)
    (hrep : listRep h s L) (hes : e ≠ s) (heL : e ∉ L)
    (hfresh : (h e).prev = none) :
    ∃ h', enqueue h s e = .ok h' ∧ listRep h' s (L ++ [e]) ∧
      ∀ k, k ≠ s → k ≠ e → k ∉ L → h' k = h k := by
  obtain ⟨h', hrun, hrep', hframe⟩ := enqueuePush_rep h s e L hrep hes heL
  refine ⟨h', ?_, hrep', hframe⟩
  unfold enqueue
  rw [if_neg (by simp [hfresh])]
  exact hrun

/-- Enqueue of an entry currently linked in the list: the guard unlinks
it in place and the push re-inserts it as the newest entry, with the
relative order of all other entries preserved. -/
theorem enqueue_relocate_rep {α : Type} (h : Heap α) (s e : ℕ) (L1 L2 : List ℕ)
    (hrep : listRep h s (L1 ++ e :: L2)) :
    ∃ h', enqueue h s e = .ok h' ∧ listRep h' s (L1 ++ L2 ++ [e]) ∧
      ∀ k, k ≠ s → k ∉ L1 ++ e :: L2 → h' k = h k := by
  obtain ⟨hseg, hnd⟩ := hrep
  have hsmem : s ∉ L1 ++ e :: L2 := (List.nodup_cons.mp hnd).1
  have hLnd : (L1 ++ e :: L2).Nodup := (List.nodup_cons.mp hnd).2
  have hsL1 : s ∉ L1 := fun hc => hsmem (List.mem_append_left _ hc)
  have hsL2 : s ∉ L2 := fun hc =>
    hsmem (List.mem_append_right _ (List.mem_cons_of_mem e hc))
  have hes : e ≠ s := fun hc =>
    hsmem (hc ▸ List.mem_append_right _ (List.mem_cons_self e L2))
  rw [List.nodup_append] at hLnd
  obtain ⟨hnd1, hnd2, hdisj12⟩ := hLnd
  have heL1 : e ∉ L1 := fun hc => hdisj12 hc (List.mem_cons_self e L2)
  have heL2 : e ∉ L2 := (List.nodup_cons.mp hnd2).1
  have hL2nd : L2.Nodup := (List.nodup_cons.mp hnd2).2
  have hrev : (L1 ++ e :: L2).reverse = L2.reverse ++ e :: L1.reverse := by simp
  rw [hrev, seg_append] at hseg
  obtain ⟨hseg1, hseg2⟩ := hseg
  obtain ⟨P, hP, hPmem, hPn⟩ := seg_prev_mem h e L2.reverse s hseg1
  have hNx : (h e).next = some (L1.reverse.headD s) := seg_next_head h e s L1.reverse hseg2
  obtain ⟨h0, hun, hseg0, hframe0⟩ := unlink_surgery h s e L2.reverse L1.reverse hseg1 hseg2
    hes (by simpa using hsL2) (by simpa using hsL1) (by simpa using heL2)
    (by simpa using heL1) (by simpa using hnd1)
    (by
      intro k hk hk1
      exact hdisj12 (List.mem_reverse.mp hk1)
        (List.mem_cons_of_mem e (List.mem_reverse.mp hk)))
  have hrep0 : listRep h0 s (L1 ++ L2) := by
    constructor
    · rw [show (L1 ++ L2).reverse = L2.reverse ++ L1.reverse by simp]
      exact hseg0
    · refine List.nodup_cons.mpr ⟨?_, ?_⟩
      · intro hc
        rcases List.mem_append.mp hc with hc | hc
        · exact hsL1 hc
        · exact hsL2 hc
      · exact List.Nodup.append hnd1 hL2nd
          (fun a ha hb => hdisj12 ha (List.mem_cons_of_mem e hb))
  obtain ⟨h', hpush, hrep', hframe1⟩ := enqueuePush_rep h0 s e (L1 ++ L2) hrep0 hes
    (by
      intro hc
      rcases List.mem_append.mp hc with hc | hc
      · exact heL1 hc
      · exact heL2 hc)
  refine ⟨h', ?_, hrep', ?_⟩
  · unfold enqueue
    rw [if_pos ⟨by rw [hP]; rfl, by rw [hNx]; rfl⟩, hun]
    exact hpush
  · intro k hks hkmem
    have hk1 : k ∉ L1 := fun hc => hkmem (List.mem_append_left _ hc)
    have hk2 : k ∉ L2 := fun hc =>
      hkmem (List.mem_append_right _ (List.mem_cons_of_mem e hc))
    have hke : k ≠ e := fun hc =>
      hkmem (by rw [hc]; exact List.mem_append_right _ (List.mem_cons_self e L2))
    rw [hframe1 k hks hke (fun hc => by
      rcases List.mem_append.mp hc with hc | hc
      · exact hk1 hc
      · exact hk2 hc)]
    exact hframe0 k hks (by simpa using hk2) (by simpa using hk1)

/-- Enqueue a list of entries in order. -/
def enqueueAll {α : Type} (s : ℕ) : Heap α → List ℕ → Except String (Heap α)
  | h, [] => .ok h
  | h, e :: es => do
    let h1 ← enqueue h s e
    enqueueAll s h1 es

/-- Perform `n` dequeues and collect the results in order. -/
def dequeueAll {α : Type} (s : ℕ) : Heap α → ℕ → Except String (List (Option ℕ) × Heap α)
  | h, 0 => .ok ([], h)
  | h, n + 1 => do
    let p ← dequeue h s
    let q ← dequeueAll s p.2 n
    .ok (p.1 :: q.1, q.2)

/-- Enqueuing distinct fresh entries appends them to the represented
list. -/
theorem enqueueAll_rep {α : Type} (s : ℕ) (es : List ℕ) :
    ∀ (h : Heap α) (L : List ℕ), listRep h s L → es.Nodup →
    (∀ e ∈ es, e ≠ s ∧ e ∉ L) → (∀ e ∈ es, (h e).prev = none) →
    ∃ h', enqueueAll s h es = .ok h' ∧ listRep h' s (L ++ es) ∧
      ∀ k, k ≠ s → k ∉ L → k ∉ es → h' k = h k := by
  induction es with
  | nil =>
    intro h L hrep _ _ _
    exact ⟨h, rfl, by simpa using hrep, fun k _ _ _ => rfl⟩
  | cons e es ih =>
    intro h L hrep hnd hmem hfresh
    obtain ⟨he, heL⟩ := hmem e (List.mem_cons_self e es)
    have hee : e ∉ es := (List.nodup_cons.mp hnd).1
    obtain ⟨h1, hrun1, hrep1, hframe1⟩ :=
      enqueue_fresh_rep h s e L hrep he heL (hfresh e (List.mem_cons_self e es))
    obtain ⟨h', hrun, hrep', hframe⟩ := ih h1 (L ++ [e]) hrep1
      (List.nodup_cons.mp hnd).2
      (fun e2 he2 => ⟨(hmem e2 (List.mem_cons_of_mem e he2)).1, by
        intro hc
        rcases List.mem_append.mp hc with hc | hc
        · exact (hmem e2 (List.mem_cons_of_mem e he2)).2 hc
        · rw [List.mem_singleton] at hc
          exact hee (hc ▸ he2)⟩)
      (fun e2 he2 => by
        rw [hframe1 e2 (hmem e2 (List.mem_cons_of_mem e he2)).1
          (fun hc => hee (hc ▸ he2))
          (hmem e2 (List.mem_cons_of_mem e he2)).2]
        exact hfresh e2 (List.mem_cons_of_mem e he2))
    refine ⟨h', ?_, ?_, ?_⟩
    · show Except.bind (enqueue h s e) (fun h1 => enqueueAll s h1 es) = .ok h'
      rw [hrun1]
      exact hrun
    · rw [show L ++ e :: es = (L ++ [e]) ++ es by simp]
      exact hrep'
    · intro k hks hkL hkes
      have hke : k ≠ e := fun hc => hkes (by simp [hc])
      rw [hframe k hks (fun hc => by
          rcases List.mem_append.mp hc with hc | hc
          · exact hkL hc
          · rw [List.mem_singleton] at hc
            exact hke hc)
        (fun hc => hkes (List.mem_cons_of_mem e hc))]
      exact hframe1 k hks hke hkL

/-- Dequeuing as many times as the list is long returns exactly its
entries, oldest first. -/
theorem dequeueAll_rep {α : Type} (s : ℕ) (L : List ℕ) :
    ∀ (h : Heap α), listRep h s L →
    ∃ h', dequeueAll s h L.length = .ok (L.map some, h') ∧ listRep h' s [] := by
  induction L with
  | nil => exact fun h hrep => ⟨h, rfl, hrep⟩
  | cons a L ih =>
    intro h hrep
    obtain ⟨h1, hrun1, hrep1, _⟩ := dequeue_rep h s a L hrep
    obtain ⟨h', hrun, hrep'⟩ := ih h1 hrep1
    refine ⟨h', ?_, hrep'⟩
    show Except.bind (dequeue h s)
      (fun p => Except.bind (dequeueAll s p.2 L.length)
        (fun q => .ok (p.1 :: q.1, q.2))) = _
    rw [hrun1]
    show Except.bind (dequeueAll s h1 L.length) (fun q => .ok (some a :: q.1, q.2)) = _
    rw [hrun]
    rfl

/-- C10 amended: the bucket List is a correct relocating FIFO for fresh
and for currently linked entries: dequeue on an empty List returns
nothing and changes nothing; after enqueuing distinct fresh entries into
an empty List, that many dequeues return exactly those entries in
enqueue order; and enqueuing an entry currently linked in the List
relocates it to the newest position without disturbing the relative
order of the other entries.  The relocation guarantee does NOT extend to
entries that were previously dequeued: `unlink` leaves the dequeued
entry's links stale (the `delete` statements are commented out), so a
later enqueue of it re-runs `unlink` against its former neighbors, which
can corrupt other lists, as the counterexample shows. -/
theorem listFifo_spec :
    (∀ (α : Type) (h : Heap α) (s : ℕ), listRep h s [] → dequeue h s = .ok (none, h)) ∧
    (∀ (α : Type) (h : Heap α) (s : ℕ) (es : List ℕ), listRep h s [] → es.Nodup →
      (∀ e ∈ es, e ≠ s) → (∀ e ∈ es, (h e).prev = none) →
      ∃ h1 h2, enqueueAll s h es = .ok h1 ∧
        dequeueAll s h1 es.length = .ok (es.map some, h2)) ∧
    (∀ (α : Type) (h : Heap α) (s e : ℕ) (L1 L2 : List ℕ),
      listRep h s (L1 ++ e :: L2) →
      ∃ h', enqueue h s e = .ok h' ∧ listRep h' s (L1 ++ L2 ++ [e])) := by
  refine ⟨fun α h s hrep => dequeue_empty h s hrep, ?_, ?_⟩
  · intro α h s es hrep hnd hne hfresh
    obtain ⟨h1, hrun1, hrep1, _⟩ := enqueueAll_rep s es h [] hrep hnd
      (fun e he => ⟨hne e he, by simp⟩) hfresh
    rw [List.nil_append] at hrep1
    obtain ⟨h2, hrun2, _⟩ := dequeueAll_rep s es h1 hrep1
    exact ⟨h1, h2, hrun1, hrun2⟩
  · intro α h s e L1 L2 hrep
    obtain ⟨h', hrun, hrep', _⟩ := enqueue_relocate_rep h s e L1 L2 hrep
    exact ⟨h', hrun, hrep'⟩

/-- Concrete heap representing the list [1, 2] at sentinel 0, used by
the C10 witness. -/
def c10RelHeap : Heap Unit := fun k =>
  if k = 0 then ⟨some 1, some 2, ()⟩
  else if k = 2 then ⟨some 0, some 1, ()⟩
  else if k = 1 then ⟨some 2, some 0, ()⟩
  else ⟨none, none, ()⟩

/-- Witness for C10 (amended) at concrete inputs: the freshly allocated
empty list, the fresh entries 1 and 2, and a relocation of entry 1 in
the two-element list [1, 2]. -/
theorem listFifo_spec_witness :
    dequeue (newList emptyHeap 0 ()) 0 = .ok (none, newList emptyHeap 0 ()) ∧
    (∃ h1 h2, enqueueAll 0 (newList emptyHeap 0 ()) [1, 2] = .ok h1 ∧
      dequeueAll 0 h1 ([1, 2] : List ℕ).length = .ok ([1, 2].map some, h2)) ∧
    (∃ h', enqueue c10RelHeap 0 1 = .ok h' ∧ listRep h' 0 ([] ++ [2] ++ [1])) :=
  ⟨listFifo_spec.1 Unit (newList emptyHeap 0 ()) 0 ⟨⟨rfl, rfl⟩, by decide⟩,
   listFifo_spec.2.1 Unit (newList emptyHeap 0 ()) 0 [1, 2] ⟨⟨rfl, rfl⟩, by decide⟩
     (by decide) (by decide) (by decide),
   listFifo_spec.2.2 Unit c10RelHeap 0 1 [] [2] ⟨⟨rfl, rfl, rfl, rfl, rfl, rfl⟩, by decide⟩⟩

/-! ## Greedy feedback arc set (src/layout.ts, lines 484-607)

The source is mid-refactor: `buildState` fills an `idMap` from original
node ids to the fresh ids returned by `fasGraph.addNode`, but never uses
it; the aggregated edges are keyed by the ORIGINAL ids while the nodes
carry fresh ids; and the node labels are created as `{ in: 0, out: 0 }`
without the `v` field that `removeNode` reads.  The embedding below is
faithful to that state of the code.  The label objects double as bucket
list entries, so they live in the linked-list heap. -/

/-- Node ids of the working graph: ids generated by `addNode` (modelled
by a counter, distinct from every original string id) and original
string ids introduced by `setEdge`. -/
inductive FasId where
  | gen : ℕ → FasId
  | orig : String → FasId
deriving DecidableEq, Repr

/-- The label object of a working-graph node: the running weighted
degrees (the source property names are `in` and `out`, renamed here
because `in` is reserved) and the id field `v`, which the labels of this
fork never carry (`addNode` is called with `{ in: 0, out: 0 }` only,
hence it is always `none`). -/
structure FasData where
  v : Option FasId
  inw : ℚ
  outw : ℚ
deriving DecidableEq, Repr

/-- The working graph: node ids mapped to the heap object id of their
label (`none` for nodes auto-created by `setEdge`, whose label is
undefined), plus one aggregated weighted edge per ordered pair. -/
structure FasGraph where
  nodes : List (FasId × Option ℕ)
  edges : List ((FasId × FasId) × ℚ)

/-- `fasGraph.node(v)`: undefined both for a missing node and for a node
whose label is undefined. -/
def fasNode (g : FasGraph) (v : FasId) : Option ℕ :=
  (g.nodes.find? fun p => p.1 = v).bind Prod.snd

/-- `fasGraph.edge(v, w)`. -/
def fasEdge (g : FasGraph) (v w : FasId) : Option ℚ :=
  (g.edges.find? fun p => p.1 = (v, w)).map Prod.snd

/-- `fasGraph.setEdge(v, w, weight)` with graphlib semantics: endpoints
missing from the graph are added with an undefined label. -/
def fasSetEdge (g : FasGraph) (v w : FasId) (q : ℚ) : FasGraph :=
  let g1 := if (g.nodes.find? fun p => p.1 = v).isSome then g
    else { g with nodes := g.nodes ++ [(v, none)] }
  let g2 := if (g1.nodes.find? fun p => p.1 = w).isSome then g1
    else { g1 with nodes := g1.nodes ++ [(w, none)] }
  if (g2.edges.find? fun p => p.1 = (v, w)).isSome then
    { g2 with edges := g2.edges.map fun p => if p.1 = (v, w) then ((v, w), q) else p }
  else { g2 with edges := g2.edges ++ [((v, w), q)] }

/-- State carried by the greedy FAS: the heap holding the label objects,
the allocation counter, the working graph, the bucket sentinels and
`zeroIdx`. -/
structure FasState where
  heap : Heap FasData
  alloc : ℕ
  graph : FasGraph
  buckets : List ℕ
  zeroIdx : ℚ

/-- `buckets[idx]` for a JavaScript number index: defined only for a
nonnegative integer within bounds. -/
def bucketAt (buckets : List ℕ) (q : ℚ) : Option ℕ :=
  if q.den = 1 ∧ 0 ≤ q.num then buckets.get? q.num.toNat else none

/-- `assignBucket(buckets, zeroIdx, entry)` from src/layout.ts: route
the entry to the sink bucket, the source bucket, or the interior bucket
selected by its degree balance. -/
def assignBucket (st : FasState) (objId : ℕ) : Except String FasState := do
  let entry := (st.heap objId).data
  if entry.outw = 0 then
    match st.buckets.head? with
    | none => .error "TypeError: enqueue of undefined"
    | some s => do
      let heap ← enqueue st.heap s objId
      .ok { st with heap := heap }
  else if entry.inw = 0 then
    match st.buckets.getLast? with
    | none => .error "TypeError: enqueue of undefined"
    | some s => do
      let heap ← enqueue st.heap s objId
      .ok { st with heap := heap }
  else
    match bucketAt st.buckets (entry.outw - entry.inw + st.zeroIdx) with
    | none => .error "TypeError: enqueue of undefined"
    | some s => do
      let heap ← enqueue st.heap s objId
      .ok { st with heap := heap }

/-- `removeNode(g, buckets, zeroIdx, entry, collectPredecessors)` from
src/layout.ts.  The entry is a label object; in this fork its `v` field
is always absent, so `g.inEdges(entry.v)` and `g.outEdges(entry.v)` are
undefined and iterate nothing, and `g.removeNode(entry.v)` removes
nothing. -/
def removeNode (st : FasState) (entryObj : ℕ) (collectPredecessors : Bool) :
    Except String (FasState × List (FasId × FasId)) := do
  let entryV := (st.heap entryObj).data.v
  let inEdges : List ((FasId × FasId) × ℚ) := match entryV with
    | none => []
    | some vid => st.graph.edges.filter fun p => p.1.2 = vid
  let (st1, results) ← inEdges.foldlM
    (fun (acc : FasState × List (FasId × FasId)) edge => do
      let (st, results) := acc
      let weight := edge.2
      match fasNode st.graph edge.1.1 with
      | none => .error "TypeError: reading out of undefined"
      | some uObj =>
        let results := if collectPredecessors then
          results ++ [(edge.1.1, edge.1.2)] else results
        let heap := hupd st.heap uObj
          { st.heap uObj with data := { (st.heap uObj).data with
              outw := (st.heap uObj).data.outw - weight } }
        let st2 ← assignBucket { st with heap := heap } uObj
        .ok (st2, results))
    (st, [])
  let outEdges := match entryV with
    | none => ([] : List ((FasId × FasId) × ℚ))
    | some vid => st1.graph.edges.filter fun p => p.1.1 = vid
  let st3 ← outEdges.foldlM
    (fun (st : FasState) edge => do
      let weight := edge.2
      match fasNode st.graph edge.1.2 with
      | none => .error "TypeError: reading in of undefined"
      | some wObj =>
        let heap := hupd st.heap wObj
          { st.heap wObj with data := { (st.heap wObj).data with
              inw := (st.heap wObj).data.inw - weight } }
        assignBucket { st with heap := heap } wObj)
    st1
  let graph := match entryV with
    | none => st3.graph
    | some vid =>
      { nodes := st3.graph.nodes.filter fun p => ¬(p.1 = vid)
        edges := st3.graph.edges.filter fun p => ¬(p.1.1 = vid) ∧ ¬(p.1.2 = vid) }
  .ok ({ st3 with graph := graph }, results)

/-- One `while ((entry = list.dequeue())) removeNode(...)` loop, with
fuel bounding the number of iterations (the source can loop forever). -/
def drain (st : FasState) (s : ℕ) : ℕ → Except String FasState
  | 0 => .error "nontermination"
  | fuel + 1 => do
    let (r, heap) ← dequeue st.heap s
    match r with
    | none => .ok { st with heap := heap }
    | some entry => do
      let (st1, _) ← removeNode { st with heap := heap } entry false
      drain st1 s fuel

/-- The highest-to-lowest scan of the interior buckets: dequeue from
each index in turn until an entry is found, then remove it collecting
predecessors. -/
def pickInterior (st : FasState) :
    List ℕ → Except String (FasState × Option (List (FasId × FasId)))
  | [] => .ok (st, none)
  | i :: rest =>
    match st.buckets.get? i with
    | none => .error "TypeError: dequeue of undefined"
    | some s => do
      let (r, heap) ← dequeue st.heap s
      match r with
      | none => pickInterior { st with heap := heap } rest
      | some entry => do
        let (st1, results) ← removeNode { st with heap := heap } entry true
        .ok (st1, some results)

/-- The indices `buckets.length - 2, …, 1` scanned by the interior
loop. -/
def interiorIdxs (n : ℕ) : List ℕ := ((List.range (n - 1)).drop 1).reverse

/-- `doGreedyFAS(g, buckets, zeroIdx)` from src/layout.ts, with fuel for
the outer while loop. -/
def doGreedyFAS (st : FasState) (results : List (FasId × FasId)) :
    ℕ → Except String (List (FasId × FasId))
  | 0 => .error "nontermination"
  | fuel + 1 =>
    if st.graph.nodes.length = 0 then .ok results
    else
      match st.buckets.head?, st.buckets.getLast? with
      | some sinks, some sources => do
        let st1 ← drain st sinks fuel
        let st2 ← drain st1 sources fuel
        if st2.graph.nodes.length ≠ 0 then do
          let (st3, r) ← pickInterior st2 (interiorIdxs st2.buckets.length)
          match r with
          | some rs => doGreedyFAS st3 (results ++ rs) fuel
          | none => doGreedyFAS st3 results fuel
        else doGreedyFAS st2 results fuel
      | _, _ => .error "TypeError: dequeue of undefined"

/-- `buildState(g, weightFn)` from src/layout.ts, faithful to the
mid-refactor state of the source: `addNode` returns fresh ids collected
into an idMap that is never read again, so the aggregation loop, keyed
by the ORIGINAL ids, dereferences nodes whose labels are undefined. -/
def buildState (nodes : List String) (edges : List MultiEdge)
    (weightFn : MultiEdge → ℚ) : Except String FasState := do
  let st0 : FasState :=
    { heap := fun _ => ⟨none, none, ⟨none, 0, 0⟩⟩, alloc := 0,
      graph := ⟨[], []⟩, buckets := [], zeroIdx := 0 }
  let st1 := nodes.foldl (fun st _v =>
    { st with
      heap := hupd st.heap st.alloc ⟨none, none, ⟨none, 0, 0⟩⟩
      alloc := st.alloc + 1
      graph := { st.graph with
        nodes := st.graph.nodes ++ [(.gen st.alloc, some st.alloc)] } })
    st0
  let (st2, maxIn, maxOut) ← edges.foldlM
    (fun (acc : FasState × ℚ × ℚ) e => do
      let (st, maxIn, maxOut) := acc
      let prevWeight := (fasEdge st.graph (.orig e.v) (.orig e.w)).getD 0
      let weight := weightFn e
      let edgeWeight := prevWeight + weight
      let g := fasSetEdge st.graph (.orig e.v) (.orig e.w) edgeWeight
      match fasNode g (.orig e.v) with
      | none => .error "TypeError: reading out of undefined"
      | some vObj =>
        let heap1 := hupd st.heap vObj
          { st.heap vObj with data := { (st.heap vObj).data with
              outw := (st.heap vObj).data.outw + weight } }
        let maxOut1 := max maxOut (heap1 vObj).data.outw
        match fasNode g (.orig e.w) with
        | none => .error "TypeError: reading in of undefined"
        | some wObj =>
          let heap2 := hupd heap1 wObj
            { heap1 wObj with data := { (heap1 wObj).data with
                inw := (heap1 wObj).data.inw + weight } }
          let maxIn1 := max maxIn (heap2 wObj).data.inw
          .ok ({ st with heap := heap2, graph := g }, maxIn1, maxOut1))
    (st1, 0, 0)
  -- buckets = _.range(maxOut + maxIn + 3).map(() => new List());
  -- lodash _.range with a fractional bound yields ceil-many entries.
  let count := (⌈maxOut + maxIn + 3⌉).toNat
  let st3 := (List.range count).foldl (fun st _i =>
    { st with
      heap := newList st.heap st.alloc ⟨none, 0, 0⟩
      alloc := st.alloc + 1
      buckets := st.buckets ++ [st.alloc] })
    { st2 with buckets := [] }
  let st4 := { st3 with zeroIdx := maxIn + 1 }
  st4.graph.nodes.foldlM (fun st p =>
    match fasNode st.graph p.1 with
    | none => .error "TypeError: reading out of undefined"
    | some objId => assignBucket st objId) st4

/-- `greedyFAS(g, weightFn)` from src/layout.ts, with fuel for the
possibly diverging `doGreedyFAS` loop; the multigraph is given as its
node list and edge list.  The final step expands every recorded arc into
the parallel edges of the original multigraph (`g.outEdges(e.v, e.w)`). -/
def greedyFAS (nodes : List String) (edges : List MultiEdge)
    (weightFn : MultiEdge → ℚ) (fuel : ℕ) : Except String (List MultiEdge) :=
  if nodes.length ≤ 1 then .ok []
  else do
    let st ← buildState nodes edges weightFn
    let results ← doGreedyFAS st [] fuel
    .ok (results.flatMap fun r =>
      edges.filter fun e => FasId.orig e.v = r.1 ∧ FasId.orig e.w = r.2)

/-- C1: the trivial part of the claim holds (at most one node yields the
empty set), but on any graph with two nodes and an edge `greedyFAS`
throws inside `buildState` — the edge loop looks the endpoints up under
their original ids while the labelled nodes carry fresh `addNode` ids
(the `idMap` is never used), so `fasGraph.node(e.v)` is undefined and
`.out += weight` throws — instead of returning a feedback arc set. -/
theorem greedyFAS_buildState_throws :
    (∀ fuel, greedyFAS ["a"] [] (fun _ => 1) fuel = .ok []) ∧
    (∀ fuel, greedyFAS ["a", "b"] [⟨"a", "b", "e1", 1, 1⟩] (fun _ => 1) fuel =
      .error "TypeError: reading out of undefined") := by
  constructor
  · intro fuel
    rfl
  · intro fuel
    rfl

/-- C9: on the triangle `a→b→c→a` — the canonical input on which an
interior node would be removed with `collectPredecessors = true` —
`greedyFAS` throws in `buildState` before `removeNode` ever runs, so no
predecessor list is emitted and no multi-edge expansion happens; and the
bucket entries that `doGreedyFAS` would dequeue carry no `v` field at
all, so `removeNode` would read `entry.v = undefined` and emit no
in-edges. -/
theorem greedyFAS_triangle_throws : ∀ fuel,
    greedyFAS ["a", "b", "c"]
      [⟨"a", "b", "e1", 1, 1⟩, ⟨"b", "c", "e2", 1, 1⟩, ⟨"c", "a", "e3", 1, 1⟩]
      (fun _ => 1) fuel = .error "TypeError: reading out of undefined" :=
  fun _ => rfl

end Dagre
